import Mathlib

/-!
# rsd: range-request streaming of the largest video file of a torrent

A shallow embedding of `main.go` and a verification of its specification.

* Go `int64` values are integers (`Int`); every arithmetic result is reduced into the
  `int64` interval by `wrap64`.
* Go `string`s are Lean strings, read rune by rune (`String.toList`).
* The collaborators the program calls through interfaces (the torrent reader, the HTTP
  response writer, the torrent client) are state machines supplied as parameters.
-/

namespace Rsd

/-! ## 64-bit integers -/

/-- Two's-complement reduction of an integer into the `int64` interval. -/
def wrap64 (x : Int) : Int := (x + 2 ^ 63) % 2 ^ 64 - 2 ^ 63

/-- The values an `int64` can hold. -/
def IsInt64 (x : Int) : Prop := -(2 ^ 63) ≤ x ∧ x < 2 ^ 63

instance (x : Int) : Decidable (IsInt64 x) := by unfold IsInt64; infer_instance

/-! ## `fmt.Sscanf(rangeHeader, "bytes=%d-%d", &start, &end)`

The scanner of Go's `fmt` package, for the verbs and literals of this one format. A scan
step fails with `none`; in Go the failure is a panic recovered inside `Sscanf`, whose
returned error `parseRangeHeader` discards. Operands stored before the failure keep their
value. -/

/-- The rune limit `hugeWid` of `fmt`: a scan reads no rune at or beyond this count. -/
def hugeWid : Nat := 2 ^ 30

/-- The function `isSpace` of `fmt/scan.go`, over its table `space` of rune ranges. -/
def isSpace (r : Char) : Bool :=
  let x := r.toNat
  (0x0009 ≤ x && x ≤ 0x000d) || x == 0x0020 || x == 0x0085 || x == 0x00a0 || x == 0x1680 ||
  (0x2000 ≤ x && x ≤ 0x200a) || (0x2028 ≤ x && x ≤ 0x2029) || x == 0x202f || x == 0x205f ||
  x == 0x3000

/-- The method `ss.SkipSpace` with `nlIsSpace = false`: spaces are consumed, a carriage
return directly before a newline is consumed, and a newline is the error
"unexpected newline". -/
def skipSpace : List Char → Option (List Char)
  | [] => some []
  | r :: rest =>
    if r = '\n' then none
    else if isSpace r then skipSpace rest
    else some (r :: rest)

/-- The decimal digits accepted by the verb `%d` (`decimalDigits`). -/
def isDecimalDigit (r : Char) : Bool := '0' ≤ r && r ≤ '9'

/-- The sign runes accepted before a number (`sign = "+-"`). -/
def isSign (r : Char) : Bool := r == '+' || r == '-'

/-- The value of a decimal digit. -/
def digitValue (r : Char) : Nat := r.toNat - '0'.toNat

/-- The digit loop of `strconv.ParseUint` in base 10, without the 64-bit cutoff (the
cutoff is applied by `parseInt`). -/
def parseUint (tok : List Char) : Nat := tok.foldl (fun n r => n * 10 + digitValue r) 0

/-- The function `strconv.ParseInt(tok, 10, 64)` on a token made of an optional sign
(`neg` when it is `-`) and the digits `digits`: a value outside `int64` is a range error. -/
def parseInt (neg : Bool) (digits : List Char) : Option Int :=
  let un := parseUint digits
  if neg then
    if un > 2 ^ 63 then none else some (-(un : Int))
  else
    if un ≥ 2 ^ 63 then none else some (un : Int)

/-- The method `ss.scanNumber(decimalDigits, false)`: at least one digit, then every
following digit. Returns the digits and the rest of the input. -/
def scanNumber (inp : List Char) : Option (List Char × List Char) :=
  match inp with
  | [] => none
  | r :: _ => if isDecimalDigit r then some (inp.span isDecimalDigit) else none

/-- The method `ss.scanInt('d', 64)`: skip spaces, fail at end of input, accept one sign,
scan the digits and convert them. Returns the value and the rest of the input. -/
def scanInt (inp : List Char) : Option (Int × List Char) :=
  match skipSpace inp with
  | none => none
  | some [] => none
  | some (r :: rest) =>
    let neg := r == '-'
    let afterSign := if isSign r then rest else r :: rest
    match scanNumber afterSign with
    | none => none
    | some (digits, rest') =>
      match parseInt neg digits with
      | none => none
      | some v => some (v, rest')

/-- The literal branch of `ss.advance`: every rune of the literal text must be the next
rune of the input (the literals of this format hold no space and no percent sign). -/
def advanceLiteral : List Char → List Char → Option (List Char)
  | [], inp => some inp
  | _ :: _, [] => none
  | c :: lit, r :: inp => if c = r then advanceLiteral lit inp else none

/-- One verb `%d` of `ss.doScanf`: `SkipSpace`, then `scanOne` into an `*int64`. -/
def scanVerbD (inp : List Char) : Option (Int × List Char) :=
  match skipSpace inp with
  | none => none
  | some inp' => scanInt inp'

/-- The call `fmt.Sscanf(rangeHeader, "bytes=%d-%d", &start, &end)` with `start` and `end`
both zero before the call: the values of `start` and `end` after it. -/
def sscanfRange (rangeHeader : String) : Int × Int :=
  match advanceLiteral "bytes=".toList (rangeHeader.toList.take hugeWid) with
  | none => (0, 0)
  | some inp1 =>
    match scanVerbD inp1 with
    | none => (0, 0)
    | some (start, inp2) =>
      match advanceLiteral "-".toList inp2 with
      | none => (start, 0)
      | some inp3 =>
        match scanVerbD inp3 with
        | none => (start, 0)
        | some (end_, _) => (start, end_)

/-! ## Range Parser -/

/-- The function `parseRangeHeader` of `main.go`: start, end and content length. -/
def parseRangeHeader (rangeHeader : String) (fileLength : Int) : Int × Int × Int :=
  if rangeHeader ≠ "" then
    let (start, end_) := sscanfRange rangeHeader
    let end_ := if end_ = 0 then wrap64 (fileLength - 1) else end_
    (start, end_, wrap64 (wrap64 (end_ - start) + 1))
  else
    let start : Int := 0
    let end_ := wrap64 (fileLength - 1)
    (start, end_, wrap64 (wrap64 (end_ - start) + 1))

/-! ## File Selector and Content-Type Resolver -/

/-- A file of a torrent as the program reads it: `file.Path()` and `file.Length()`. -/
structure File where
  path : String
  length : Int
deriving DecidableEq, Repr

/-- The function `os.IsPathSeparator` (Unix). -/
def isPathSeparator (c : Char) : Bool := c == '/'

/-- The loop of `filepath.Ext`, walking the path from its last character towards the
first: `acc` holds the characters already passed, in path order. -/
def extLoop : List Char → List Char → List Char
  | [], _ => []
  | c :: before, acc =>
    if isPathSeparator c then []
    else if c = '.' then c :: acc
    else extLoop before (c :: acc)

/-- The function `filepath.Ext`: the suffix of the path beginning at the final dot of
its final element, or the empty string when that element has no dot. -/
def Ext (path : String) : String := String.mk (extLoop path.toList.reverse [])

/-- The function `isVideoFile` of `main.go`. -/
def isVideoFile (path : String) : Bool :=
  let ext := Ext path
  ext == ".mp4" || ext == ".mkv"

/-- The function `getContentType` of `main.go`. -/
def getContentType (path : String) : String :=
  if Ext path = ".mkv" then "video/x-matroska" else "video/mp4"

/-- The body of the loop of `findLargestVideoFile`: `videoFile` is the pointer kept so
far (`none` for `nil`), `file` the file of this iteration. -/
def selectStep (videoFile : Option File) (file : File) : Option File :=
  if isVideoFile file.path &&
      (match videoFile with
       | none => true
       | some best => decide (file.length > best.length)) then
    some file
  else videoFile

/-- The function `findLargestVideoFile` of `main.go`. -/
def findLargestVideoFile (files : List File) : Option File :=
  files.foldl selectStep none

/-! ## Collaborators: errors, the response writer, the torrent reader -/

/-- A Go `error` value as the program tells errors apart: `io.EOF`, or another error
with its message. -/
inductive GoError where
  | eof
  | other (msg : String)
deriving DecidableEq, Repr

/-- The text of an error under the verb `%v`. -/
def GoError.text : GoError → String
  | .eof => "EOF"
  | .other msg => msg

/-- The bytes of a Go string (`[]byte(s)`). -/
def bytesOf (s : String) : List UInt8 := s.toUTF8.data.toList

/-- An `http.ResponseWriter` of `net/http`.
`header` is the header map; `committed` is the status code and the header snapshot fixed
by the first `WriteHeader`; `body` holds the bytes accepted by `Write`; `flushed` is the
number of body bytes pushed to the client by `Flush`; `writeErr k` is the error, if any,
that the connection returns to the `k`-th call of `Write`. -/
structure ResponseWriter where
  header : List (String × String)
  committed : Option (Nat × List (String × String))
  body : List UInt8
  flushed : Nat
  writes : Nat
  writeErr : Nat → Option GoError

namespace ResponseWriter

/-- A response writer as a handler receives it, over a connection behaviour. -/
def fresh (writeErr : Nat → Option GoError) : ResponseWriter :=
  { header := [], committed := none, body := [], flushed := 0, writes := 0,
    writeErr := writeErr }

/-- The call `w.Header().Set(key, value)`. -/
def setHeader (w : ResponseWriter) (key value : String) : ResponseWriter :=
  { w with header := (w.header.filter (fun kv => kv.1 != key)) ++ [(key, value)] }

/-- The call `w.Header().Del(key)`. -/
def delHeader (w : ResponseWriter) (key : String) : ResponseWriter :=
  { w with header := w.header.filter (fun kv => kv.1 != key) }

/-- The call `w.WriteHeader(code)`: only the first call fixes status and headers. -/
def writeHeader (w : ResponseWriter) (code : Nat) : ResponseWriter :=
  match w.committed with
  | some _ => w
  | none => { w with committed := some (code, w.header) }

/-- The call `w.Write(p)`: commits status 200 when no status was written, then hands
the bytes to the connection, which accepts them all or returns its error. -/
def write (w : ResponseWriter) (p : List UInt8) : ResponseWriter × Option GoError :=
  let w := w.writeHeader 200
  match w.writeErr w.writes with
  | none => ({ w with body := w.body ++ p, writes := w.writes + 1 }, none)
  | some e => ({ w with writes := w.writes + 1 }, some e)

/-- The call `w.(http.Flusher).Flush()`. -/
def flush (w : ResponseWriter) : ResponseWriter :=
  let w := w.writeHeader 200
  { w with flushed := w.body.length }

/-- The status code sent to the client, once committed. -/
def status (w : ResponseWriter) : Option Nat := w.committed.map Prod.fst

end ResponseWriter

/-- The function `http.Error(w, error, code)`: it deletes the `Content-Length` header,
sets the plain-text headers, writes the status code, and writes the message followed by a
newline to the body (`fmt.Fprintln(w, error)`). -/
def httpError (w : ResponseWriter) (error : String) (code : Nat) : ResponseWriter :=
  let w := w.delHeader "Content-Length"
  let w := w.setHeader "Content-Type" "text/plain; charset=utf-8"
  let w := w.setHeader "X-Content-Type-Options" "nosniff"
  let w := w.writeHeader code
  (w.write (bytesOf (error ++ "\n"))).1

/-- The result of one `reader.Read(buf)`: `data` is `buf[:n]`, so `n = data.length`. -/
structure ReadResult where
  data : List UInt8
  err : Option GoError

/-- The `torrent.Reader` interface as the program uses it, over reader states `ρ`. -/
structure Reader (ρ : Type) where
  /-- The call `videoFile.NewReader()`. -/
  newReader : File → ρ
  /-- The call `reader.Seek(offset, io.SeekStart)`. -/
  seek : ρ → Int → ρ × Option GoError
  /-- The call `reader.Read(buf)` with `len(buf)` as argument. -/
  read : ρ → Nat → ρ × ReadResult
  /-- The call `reader.Close()`. -/
  close : ρ → ρ

/-- A call the program makes on the Content Source or on a reader. -/
inductive Event where
  | addMagnet (magnet : String)
  | gotInfo
  | files
  | newReader (path : String)
  | seek (offset : Int)
  | read (len : Nat)
  | close
deriving DecidableEq, Repr

/-- The state of one streaming session: the response writer, the reader, and the calls
made so far on the collaborators, oldest first. -/
structure Session (ρ : Type) where
  w : ResponseWriter
  rd : ρ
  trace : List Event

/-! ## Streaming Engine -/

/-- The size of the buffer `buf` of `streamVideoFile`: 1 MiB. -/
def bufSize : Nat := 1024 * 1024

/-- How one pass through the loop body of `streamVideoFile` ends: the loop goes on with
a new position, or it is left (`break` or `return`). -/
inductive Step (ρ : Type) where
  | next (pos : Int) (s : Session ρ)
  | done (s : Session ρ)

/-- The body of the loop of `streamVideoFile`, entered with `pos <= end`. -/
def loopBody {ρ : Type} (R : Reader ρ) (pos : Int) (s : Session ρ) : Step ρ :=
  let (rd, res) := R.read s.rd bufSize
  let s := { s with rd := rd, trace := s.trace ++ [Event.read bufSize] }
  let n := res.data.length
  match res.err with
  | some (.other msg) =>
    .done { s with w := httpError s.w ("Error reading file: " ++ msg) 500 }
  | err =>
    let (w, werr) := if n > 0 then s.w.write res.data else (s.w, none)
    match werr with
    | some e =>
      .done { s with w := httpError w ("Error writing to client: " ++ e.text) 500 }
    | none =>
      let w := if n > 0 then w.flush else w
      if err = some .eof ∨ n = 0 then .done { s with w := w }
      else .next (wrap64 (pos + n)) { s with w := w }

/-- The loop `for pos := start; pos <= end; ...` of `streamVideoFile`, run for at
most `fuel` passes: `none` when the loop is still running after them. -/
def streamLoop {ρ : Type} (R : Reader ρ) (end_ : Int) :
    Nat → Int → Session ρ → Option (Session ρ)
  | 0, pos, s => if pos ≤ end_ then none else some s
  | fuel + 1, pos, s =>
    if pos ≤ end_ then
      match loopBody R pos s with
      | .next pos' s' => streamLoop R end_ fuel pos' s'
      | .done s' => some s'
    else some s

/-- The state of the loop of `streamVideoFile` after `k` passes through its body:
the position and the session, and whether the loop is still running. `none` when the
loop was left before the `k`-th pass. -/
def afterPasses {ρ : Type} (R : Reader ρ) (end_ : Int) :
    Nat → Int → Session ρ → Option (Int × Session ρ × Bool)
  | 0, pos, s => some (pos, s, true)
  | k + 1, pos, s =>
    if pos ≤ end_ then
      match loopBody R pos s with
      | .next pos' s' => afterPasses R end_ k pos' s'
      | .done s' => if k = 0 then some (pos, s', false) else none
    else none

/-- The deferred `reader.Close()`. -/
def closeReader {ρ : Type} (R : Reader ρ) (s : Session ρ) : Session ρ :=
  { s with rd := R.close s.rd, trace := s.trace ++ [Event.close] }

/-- The first statements of `streamVideoFile`: `videoFile.NewReader()` and
`reader.Seek(start, io.SeekStart)`. Returns the session and the error of `Seek`. -/
def openAndSeek {ρ : Type} (R : Reader ρ) (w : ResponseWriter) (videoFile : File)
    (start : Int) : Session ρ × Option GoError :=
  let rd := R.newReader videoFile
  let (rd, err) := R.seek rd start
  ({ w := w, rd := rd, trace := [.newReader videoFile.path, .seek start] }, err)

/-- The function `streamVideoFile` of `main.go`, its loop run for at most `fuel`
passes. The calls to `log` are left out. -/
def streamVideoFile {ρ : Type} (R : Reader ρ) (fuel : Nat) (w : ResponseWriter)
    (videoFile : File) (start end_ : Int) : Option (Session ρ) :=
  let (s, err) := openAndSeek R w videoFile start
  match err with
  | some e =>
    some (closeReader R
      { s with w := httpError s.w ("Error seeking in file: " ++ e.text) 500 })
  | none => (streamLoop R end_ fuel start s).map (closeReader R)

/-! ## Stream Handler -/

/-- An `http.Request` as the handler reads it: the query parameters and the headers,
each in order of appearance. -/
structure Request where
  query : List (String × String)
  header : List (String × String)

/-- The method `Get` of `url.Values` and of `http.Header`: the first value stored
under the key, or the empty string. -/
def lookupFirst (kvs : List (String × String)) (key : String) : String :=
  match kvs.find? (fun kv => kv.1 == key) with
  | some kv => kv.2
  | none => ""

/-- A `torrent.Torrent` handle: whether the channel `GotInfo()` is ever closed, and the
file list `Files()`. -/
structure Torrent where
  gotInfo : Bool
  files : List File

/-- The torrent client (Content Source) with the readers of its files. -/
structure Client (ρ : Type) where
  /-- The call `client.AddMagnet(magnetLink)`. -/
  addMagnet : String → Except GoError Torrent
  reader : Reader ρ

/-- The function `handleRangeRequest` of `main.go`. -/
def handleRangeRequest {ρ : Type} (R : Reader ρ) (fuel : Nat) (w : ResponseWriter)
    (r : Request) (videoFile : File) (contentType : String) : Option (Session ρ) :=
  let rangeHeader := lookupFirst r.header "Range"
  let (start, end_, contentLength) := parseRangeHeader rangeHeader videoFile.length
  let w := w.setHeader "Content-Type" contentType
  let w := w.setHeader "Content-Length" (toString contentLength)
  let w := w.setHeader "Accept-Ranges" "bytes"
  let w := w.setHeader "Content-Range"
    ("bytes " ++ toString start ++ "-" ++ toString end_ ++ "/" ++ toString videoFile.length)
  let w := w.writeHeader 206
  streamVideoFile R fuel w videoFile start end_

/-- The handler of `/stream` registered in `main`: the response writer and the calls
made on the collaborators, or `none` when the handler does not return (the metadata
never arrives, or the copy loop is still running after `fuel` passes). -/
def streamHandler {ρ : Type} (C : Client ρ) (fuel : Nat) (w : ResponseWriter)
    (r : Request) : Option (ResponseWriter × List Event) :=
  let magnetLink := lookupFirst r.query "magnet"
  if magnetLink = "" then
    some (httpError w "Magnet link is required" 400, [])
  else
    match C.addMagnet magnetLink with
    | .error err =>
      some (httpError w ("Error adding magnet: " ++ err.text) 500, [.addMagnet magnetLink])
    | .ok t =>
      if t.gotInfo then
        let calls := [Event.addMagnet magnetLink, .gotInfo, .files]
        match findLargestVideoFile t.files with
        | none => some (httpError w "No video file found in the torrent" 404, calls)
        | some videoFile =>
          let contentType := getContentType videoFile.path
          (handleRangeRequest C.reader fuel w r videoFile contentType).map
            (fun s => (s.w, calls ++ s.trace))
      else none

/-! ## Notions used by the specification -/

/-- The header text `bytes=<start>-<end>`, both numbers written in decimal. -/
def rangeHeaderText (start end_ : Nat) : String :=
  "bytes=" ++ toString start ++ "-" ++ toString end_

/-- The input that follows a scanned number does not continue it with a digit. -/
def EndsNumber (rest : List Char) : Prop :=
  ∀ c, rest.head? = some c → isDecimalDigit c = false

/-- What the scan of `findLargestVideoFile` has established once it has passed the
files `l` and holds `r`: `r` is `none` only when no file of `l` qualifies, and otherwise
`r` sits at an index of `l`, no qualifying file of `l` is longer, and every qualifying
file before that index is strictly shorter. -/
def SelectInv (l : List File) (r : Option File) : Prop :=
  (r = none → ∀ f ∈ l, isVideoFile f.path = false) ∧
  (∀ best, r = some best →
    ∃ i : Nat, l[i]? = some best ∧ isVideoFile best.path = true ∧
      (∀ (j : Nat) (f : File), l[j]? = some f → isVideoFile f.path = true →
        f.length ≤ best.length) ∧
      (∀ (j : Nat) (f : File), j < i → l[j]? = some f → isVideoFile f.path = true →
        f.length < best.length))

/-- The bytes of `src` at the offsets `a ≤ i < b`, in increasing offset order. -/
def slice (src : List UInt8) (a b : Nat) : List UInt8 := (src.drop a).take (b - a)

/-- A response writer whose connection accepts every write. -/
def Accepts (w : ResponseWriter) : Prop := ∀ k, w.writeErr k = none

/-- The state of a reader over the bytes of a file: the bytes, the offset of the next
byte to deliver, and the number of `Read` calls made so far. -/
structure FileReaderState where
  src : List UInt8
  off : Nat
  reads : Nat

/-- An error-free reader over the bytes `content f` of each file `f`. After a seek to a
non-negative offset, the `k`-th `Read` delivers the next source bytes in order, as many
as `chunk k` says, but at least one and at most the buffer length, and no more than the
source still holds. End-of-stream is `(0, io.EOF)` once the source is exhausted; with
`eofWithData` the read that delivers the last source bytes already carries `io.EOF`. -/
def fileReader (content : File → List UInt8) (chunk : Nat → Nat) (eofWithData : Bool) :
    Reader FileReaderState where
  newReader f := { src := content f, off := 0, reads := 0 }
  seek s offset :=
    if offset < 0 then (s, some (.other "negative position"))
    else ({ s with off := offset.toNat }, none)
  read s len :=
    if s.src.length ≤ s.off then
      ({ s with reads := s.reads + 1 }, { data := [], err := some .eof })
    else
      let data := (s.src.drop s.off).take (min (max 1 (chunk s.reads)) len)
      let off := s.off + data.length
      ({ s with off := off, reads := s.reads + 1 },
        { data := data,
          err := if eofWithData && decide (s.src.length ≤ off) then some .eof else none })
  close s := s

/-- The relation between sink and reader during a session over a file reader: the
reader still holds the bytes `src`, the sink accepts every write, and the body is what
it was before the session (`body0`) followed by exactly the source bytes from offset `a`
up to the offset of the reader. -/
def FileInv (src body0 : List UInt8) (a : Nat) (s : Session FileReaderState) : Prop :=
  s.rd.src = src ∧ Accepts s.w ∧ a ≤ s.rd.off ∧ s.w.body = body0 ++ slice src a s.rd.off

/-- The qualifying rule in the words of the specification: the name ends in `.mp4` or in
`.mkv`, an exact, case-sensitive suffix match. -/
def endsWithVideoSuffix (path : String) : Bool :=
  ".mp4".toList.isSuffixOf path.toList || ".mkv".toList.isSuffixOf path.toList

/-- The suffix-range header text `bytes=-<n>`, the number written in decimal. -/
def suffixRangeText (n : Nat) : String := "bytes=-" ++ toString n

/-- The input begins with an integer: a decimal digit, or a sign directly followed by a
decimal digit. -/
def beginsInteger : List Char → Bool
  | [] => false
  | c :: tl =>
    isDecimalDigit c ||
      (isSign c && (match tl with
        | d :: _ => isDecimalDigit d
        | [] => false))

/-- The header begins with the literal text `bytes=` followed by an integer. -/
def beginsBytesInteger (header : String) : Bool :=
  "bytes=".toList.isPrefixOf header.toList && beginsInteger (header.toList.drop 6)

/-- A space other than the newline. -/
def isBlank (c : Char) : Bool := isSpace c && c != '\n'

/-- The header begins with the literal text `bytes=` followed by any number of spaces
other than newlines and then an integer. -/
def beginsBytesBlanksInteger (header : String) : Bool :=
  "bytes=".toList.isPrefixOf header.toList &&
    beginsInteger ((header.toList.drop 6).dropWhile isBlank)

/-- The contract of `io.Reader`: a `Read` returns at most `len(buf)` bytes. -/
def Conforms {ρ : Type} (R : Reader ρ) : Prop :=
  ∀ (s : ρ) (len : Nat), (R.read s len).2.data.length ≤ len

/-- A reader none of whose `Read` calls returns an error other than `io.EOF`. -/
def ErrorFree {ρ : Type} (R : Reader ρ) : Prop :=
  ∀ (s : ρ) (len : Nat) (msg : String), (R.read s len).2.err ≠ some (.other msg)

/-- The number of `Read` calls in a trace. -/
def readCount (trace : List Event) : Nat :=
  trace.countP (fun e => match e with
    | .read _ => true
    | _ => false)

/-- What `streamVideoFile` can write to the sink besides source bytes: nothing, or the one
message of its `http.Error` call, followed by a newline. -/
def ErrorText (text : List UInt8) : Prop :=
  text = [] ∨ ∃ e : String,
    text = bytesOf ("Error seeking in file: " ++ e ++ "\n") ∨
    text = bytesOf ("Error reading file: " ++ e ++ "\n") ∨
    text = bytesOf ("Error writing to client: " ++ e ++ "\n")

/-- A reader that never ends: every seek succeeds, and every `Read` delivers one zero byte
without error and without end-of-stream. -/
def endlessReader : Reader Unit where
  newReader _ := ()
  seek s _ := (s, none)
  read s len := (s, { data := List.replicate (min 1 len) 0, err := none })
  close s := s

/-! # Verification

## 64-bit arithmetic -/

/-- An `int64` value is left unchanged by the reduction. -/
theorem wrap64_of_isInt64 {x : Int} (h : IsInt64 x) : wrap64 x = x := by
  unfold IsInt64 at h
  unfold wrap64
  omega

/-- Reducing an intermediate result does not change the reduced sum. -/
theorem wrap64_wrap64_add (a b : Int) : wrap64 (wrap64 a + b) = wrap64 (a + b) := by
  unfold wrap64
  omega

/-! ## Scanning decimal numbers -/

/-- The character of a digit value below ten is a decimal digit of that value. -/
theorem digitChar_decimal (m : Nat) (h : m < 10) :
    isDecimalDigit (Nat.digitChar m) = true ∧ digitValue (Nat.digitChar m) = m := by
  interval_cases m <;> decide

/-- The digits that `Nat.toDigitsCore` puts before its accumulator are decimal digits, at
least one, and reading them in base ten after `acc` gives `acc * 10 ^ length + n`. -/
theorem toDigitsCore_decimal (fuel : Nat) : ∀ (n : Nat) (ds : List Char), n < fuel →
    ∃ pre : List Char, Nat.toDigitsCore 10 fuel n ds = pre ++ ds ∧ pre ≠ [] ∧
      (∀ c ∈ pre, isDecimalDigit c = true) ∧
      ∀ acc : Nat, pre.foldl (fun a r => a * 10 + digitValue r) acc
        = acc * 10 ^ pre.length + n := by
  induction fuel with
  | zero => intro n ds h; omega
  | succ fuel ih =>
    intro n ds h
    have hd := digitChar_decimal (n % 10) (Nat.mod_lt _ (by decide))
    by_cases hq : n / 10 = 0
    · refine ⟨[Nat.digitChar (n % 10)], ?_, by simp, ?_, ?_⟩
      · simp [Nat.toDigitsCore, hq]
      · intro c hc
        have : c = Nat.digitChar (n % 10) := by simpa using hc
        rw [this]; exact hd.1
      · intro acc
        simp only [List.foldl_cons, List.foldl_nil, List.length_singleton, pow_one, hd.2]
        omega
    · have hlt : n / 10 < fuel := by omega
      obtain ⟨pre, hpre, -, hdig, hval⟩ := ih (n / 10) (Nat.digitChar (n % 10) :: ds) hlt
      refine ⟨pre ++ [Nat.digitChar (n % 10)], ?_, by simp, ?_, ?_⟩
      · simp [Nat.toDigitsCore, hq, hpre]
      · intro c hc
        rcases List.mem_append.mp hc with h1 | h2
        · exact hdig c h1
        · have : c = Nat.digitChar (n % 10) := by simpa using h2
          rw [this]; exact hd.1
      · intro acc
        rw [List.foldl_append, hval acc]
        simp only [List.foldl_cons, List.foldl_nil, hd.2, List.length_append,
          List.length_singleton, pow_succ]
        have := Nat.div_add_mod n 10
        nlinarith [Nat.div_add_mod n 10]

/-- The decimal text of `n` is a non-empty run of decimal digits whose value is `n`. -/
theorem toDigits_decimal (n : Nat) :
    Nat.toDigits 10 n ≠ [] ∧ (∀ c ∈ Nat.toDigits 10 n, isDecimalDigit c = true) ∧
      parseUint (Nat.toDigits 10 n) = n := by
  obtain ⟨pre, hpre, hne, hdig, hval⟩ := toDigitsCore_decimal (n + 1) n [] (Nat.lt_succ_self n)
  have h : Nat.toDigits 10 n = pre := by simpa [Nat.toDigits] using hpre
  rw [h]
  refine ⟨hne, hdig, ?_⟩
  have := hval 0
  simpa [parseUint] using this

/-- An `int64` magnitude has at most 19 decimal digits. -/
theorem toDigits_length_le (n : Nat) (h : n < 2 ^ 63) : (Nat.toDigits 10 n).length ≤ 19 :=
  Nat.toDigitsCore_length 10 (by decide) (n + 1) n 19 (by omega) (by decide)

/-- A decimal digit is no space, no newline and no sign. -/
theorem isSpace_of_digit {c : Char} (h : isDecimalDigit c = true) :
    isSpace c = false ∧ c ≠ '\n' ∧ isSign c = false := by
  have h1 : 48 ≤ c.toNat ∧ c.toNat ≤ 57 := by
    simp only [isDecimalDigit, Bool.and_eq_true, decide_eq_true_eq] at h
    exact ⟨by simpa using h.1, by simpa using h.2⟩
  have hne : ∀ d : Char, (d.toNat < 48 ∨ 57 < d.toNat) → c ≠ d := by
    intro d hd hcd
    rw [hcd] at h1
    omega
  refine ⟨?_, hne _ (by decide), ?_⟩
  · simp only [isSpace, Bool.or_eq_false_iff, Bool.and_eq_false_iff, decide_eq_false_iff_not,
      beq_eq_false_iff_ne, ne_eq]
    omega
  · simp only [isSign, Bool.or_eq_false_iff, beq_eq_false_iff_ne, ne_eq]
    exact ⟨hne _ (by decide), hne _ (by decide)⟩

/-- `SkipSpace` stops at once before a digit. -/
theorem skipSpace_of_digit {c : Char} (rest : List Char) (h : isDecimalDigit c = true) :
    skipSpace (c :: rest) = some (c :: rest) := by
  obtain ⟨h1, h2, _⟩ := isSpace_of_digit h
  simp [skipSpace, h1, h2]

/-- The digit loop of `scanNumber` takes exactly a run of digits that is followed by the
end of the input or by a rune that is no digit. -/
theorem span_digits (pre rest : List Char) (hpre : ∀ c ∈ pre, isDecimalDigit c = true)
    (hrest : EndsNumber rest) : (pre ++ rest).span isDecimalDigit = (pre, rest) := by
  rw [List.span_eq_take_drop, List.takeWhile_append_of_pos hpre,
    List.dropWhile_append_of_pos hpre]
  cases rest with
  | nil => simp
  | cons r rest =>
    have := hrest r rfl
    simp [List.takeWhile, List.dropWhile, this]

/-- The verb `%d` reads the decimal text of a number below `2 ^ 63` back as that number and
leaves the input that follows it. -/
theorem scanVerbD_decimal (n : Nat) (hn : n < 2 ^ 63) (rest : List Char)
    (hrest : EndsNumber rest) :
    scanVerbD (Nat.toDigits 10 n ++ rest) = some ((n : Int), rest) := by
  obtain ⟨hne, hdig, hval⟩ := toDigits_decimal n
  obtain ⟨c, tl, hc⟩ := List.exists_cons_of_ne_nil hne
  have hcd : isDecimalDigit c = true := hdig c (by rw [hc]; simp)
  have hskip : skipSpace (Nat.toDigits 10 n ++ rest) = some (Nat.toDigits 10 n ++ rest) := by
    rw [hc]; exact skipSpace_of_digit _ hcd
  have hsign := (isSpace_of_digit hcd).2.2
  have hminus : (c == '-') = false := by
    simp only [isSign, Bool.or_eq_false_iff] at hsign
    exact hsign.2
  have hspan := span_digits (Nat.toDigits 10 n) rest hdig hrest
  unfold scanVerbD
  rw [hskip]
  simp only
  unfold scanInt
  rw [hskip]
  rw [hc] at hspan ⊢
  simp only [List.cons_append, hsign, hminus, scanNumber, hcd, if_true, Bool.false_eq_true,
    if_false]
  rw [← List.cons_append, hspan]
  simp only [parseInt, Bool.false_eq_true, if_false]
  rw [← hc, hval]
  have : ¬ 9223372036854775808 ≤ n := by omega
  simp [this]

/-- A literal of the format is consumed from an input that begins with it. -/
theorem advanceLiteral_append (lit rest : List Char) :
    advanceLiteral lit (lit ++ rest) = some rest := by
  induction lit with
  | nil => cases rest <;> simp [advanceLiteral]
  | cons c lit ih => simp [advanceLiteral, ih]

/-- The runes of `toString n` are the decimal digits of `n`. -/
theorem toList_toString_nat (n : Nat) : (toString n).toList = Nat.toDigits 10 n := by
  show (Nat.repr n).toList = _
  simp [Nat.repr, String.toList, List.asString]

/-- A dash ends a number. -/
theorem endsNumber_dash (tail : List Char) : EndsNumber ('-' :: tail) := by
  intro c hc
  have : c = '-' := by simpa using hc.symm
  rw [this]; decide

/-- The end of the input ends a number. -/
theorem endsNumber_nil : EndsNumber [] := by
  intro c hc; simp at hc

/-- The scan of a header `bytes=<a>-<tail>`: `start` is `a`, and `end` is what the second
`%d` reads from `tail`, or stays zero when that scan fails. -/
theorem sscanfRange_start (header : String) (a : Nat) (tail : List Char) (ha : a < 2 ^ 63)
    (hlist : header.toList = "bytes=".toList ++ (Nat.toDigits 10 a ++ '-' :: tail))
    (hlen : header.toList.length ≤ hugeWid) :
    sscanfRange header =
      match scanVerbD tail with
      | none => ((a : Int), 0)
      | some (e, _) => ((a : Int), e) := by
  unfold sscanfRange
  rw [List.take_of_length_le hlen, hlist, advanceLiteral_append]
  simp only
  rw [scanVerbD_decimal a ha _ (endsNumber_dash tail)]
  simp only
  have : advanceLiteral "-".toList ('-' :: tail) = some tail := advanceLiteral_append ['-'] tail
  rw [this]

/-- The scan of the header text `bytes=<a>-<b>` stores `a` and `b`. -/
theorem sscanfRange_rangeHeaderText (a b : Nat) (ha : a < 2 ^ 63) (hb : b < 2 ^ 63) :
    sscanfRange (rangeHeaderText a b) = ((a : Int), (b : Int)) := by
  have hlist : (rangeHeaderText a b).toList
      = "bytes=".toList ++ (Nat.toDigits 10 a ++ '-' :: Nat.toDigits 10 b) := by
    simp only [rangeHeaderText, String.toList, String.data_append]
    rw [← String.toList, ← String.toList, toList_toString_nat, toList_toString_nat]
    simp
  have hlen : (rangeHeaderText a b).toList.length ≤ hugeWid := by
    rw [hlist]
    have h1 := toDigits_length_le a ha
    have h2 := toDigits_length_le b hb
    simp only [List.length_append, List.length_cons]
    have : "bytes=".toList.length = 6 := by decide
    rw [this]
    unfold hugeWid
    omega
  rw [sscanfRange_start _ a _ ha hlist hlen]
  have := scanVerbD_decimal b hb [] endsNumber_nil
  rw [List.append_nil] at this
  rw [this]

/-- The header text of a range is not empty. -/
theorem rangeHeaderText_ne_empty (a b : Nat) : rangeHeaderText a b ≠ "" := by
  intro h
  have h2 := congrArg String.toList h
  simp [rangeHeaderText, String.toList, String.data_append] at h2

/-- The result of `parseRangeHeader` on a non-empty header, in terms of the two scanned
values. -/
theorem parseRangeHeader_of_scan (header : String) (total : Int) (hne : header ≠ "") :
    parseRangeHeader header total =
      let e := if (sscanfRange header).2 = 0 then wrap64 (total - 1) else (sscanfRange header).2
      ((sscanfRange header).1, e, wrap64 (e - (sscanfRange header).1 + 1)) := by
  unfold parseRangeHeader
  simp only [ne_eq, hne, not_false_eq_true, if_true, wrap64_wrap64_add]

/-! ## File Selector -/

/-- An element of `l ++ [x]` is an element of `l` at the same index, or it is `x` at the
index `l.length`. -/
theorem getElem?_snoc_cases {α : Type} (l : List α) (x : α) (j : Nat) (f : α)
    (h : (l ++ [x])[j]? = some f) : l[j]? = some f ∨ (j = l.length ∧ f = x) := by
  by_cases hj : j < l.length
  · left
    rw [List.getElem?_append_left hj] at h
    exact h
  · right
    have hj2 : l.length ≤ j := Nat.le_of_not_lt hj
    rw [List.getElem?_append_right hj2] at h
    by_cases hz : j - l.length = 0
    · rw [hz] at h
      simp at h
      exact ⟨by omega, h.symm⟩
    · obtain ⟨m, hm⟩ := Nat.exists_eq_succ_of_ne_zero hz
      rw [hm] at h
      simp at h

/-- The scan of `findLargestVideoFile` keeps `SelectInv` over the files passed so far. -/
theorem selectInv_foldl (l : List File) : SelectInv l (l.foldl selectStep none) := by
  induction l using List.reverseRecOn with
  | nil =>
    unfold SelectInv
    refine ⟨fun _ f hf => by simp at hf, fun best h => by simp at h⟩
  | append_singleton l x ih =>
    rw [List.foldl_append]
    simp only [List.foldl_cons, List.foldl_nil]
    unfold SelectInv at ih ⊢
    obtain ⟨ihn, ihs⟩ := ih
    cases hr : l.foldl selectStep none with
    | none =>
      have hall := ihn hr
      by_cases hv : isVideoFile x.path = true
      · have hstep : selectStep none x = some x := by simp [selectStep, hv]
        rw [hstep]
        refine ⟨fun h => by simp at h, fun best hb => ?_⟩
        have hbx : x = best := by simpa using hb
        subst hbx
        refine ⟨l.length, by simp, hv, ?_, ?_⟩
        · intro j f hj hf
          rcases getElem?_snoc_cases l x j f hj with h1 | ⟨_, h2⟩
          · have := hall f (List.getElem?_mem h1)
            rw [this] at hf; exact absurd hf (by simp)
          · rw [h2]
        · intro j f hlt hj hf
          rcases getElem?_snoc_cases l x j f hj with h1 | ⟨h2, _⟩
          · have := hall f (List.getElem?_mem h1)
            rw [this] at hf; exact absurd hf (by simp)
          · omega
      · have hv2 : isVideoFile x.path = false := by simpa using hv
        have hstep : selectStep none x = none := by simp [selectStep, hv2]
        rw [hstep]
        refine ⟨fun _ f hf => ?_, fun best hb => by simp at hb⟩
        rcases List.mem_append.mp hf with h1 | h2
        · exact hall f h1
        · have : f = x := by simpa using h2
          rw [this]; exact hv2
    | some cur =>
      obtain ⟨i, hi, hcv, hmax, hfirst⟩ := ihs cur hr
      by_cases hv : isVideoFile x.path = true ∧ x.length > cur.length
      · have hstep : selectStep (some cur) x = some x := by simp [selectStep, hv.1, hv.2]
        rw [hstep]
        refine ⟨fun h => by simp at h, fun best hb => ?_⟩
        have hbx : x = best := by simpa using hb
        subst hbx
        refine ⟨l.length, by simp, hv.1, ?_, ?_⟩
        · intro j f hj hf
          rcases getElem?_snoc_cases l x j f hj with h1 | ⟨_, h2⟩
          · have := hmax j f h1 hf
            omega
          · rw [h2]
        · intro j f hlt hj hf
          rcases getElem?_snoc_cases l x j f hj with h1 | ⟨h2, _⟩
          · have := hmax j f h1 hf
            omega
          · omega
      · have hstep : selectStep (some cur) x = some cur := by
          unfold selectStep
          by_cases hvx : isVideoFile x.path = true
          · have : ¬ x.length > cur.length := fun h => hv ⟨hvx, h⟩
            simp [hvx, this]
          · simp [hvx]
        rw [hstep]
        refine ⟨fun h => by simp at h, fun best hb => ?_⟩
        have hbx : cur = best := by simpa using hb
        subst hbx
        have hil : i < l.length := by
          by_contra hcon
          rw [List.getElem?_eq_none (by omega)] at hi
          simp at hi
        refine ⟨i, by rw [List.getElem?_append_left hil]; exact hi, hcv, ?_, ?_⟩
        · intro j f hj hf
          rcases getElem?_snoc_cases l x j f hj with h1 | ⟨_, h2⟩
          · exact hmax j f h1 hf
          · rw [h2] at hf ⊢
            by_contra hcon
            exact hv ⟨hf, by omega⟩
        · intro j f hlt hj hf
          rcases getElem?_snoc_cases l x j f hj with h1 | ⟨h2, _⟩
          · exact hfirst j f hlt h1 hf
          · omega

/-- The empty header selects the whole file. -/
theorem parseRangeHeader_empty_eq (total : Int) (h0 : 0 ≤ total) (h1 : total < 2 ^ 63) :
    parseRangeHeader "" total = (0, total - 1, total) := by
  have h : wrap64 (total - 1) = total - 1 := wrap64_of_isInt64 (by unfold IsInt64; omega)
  have h2 : wrap64 total = total := wrap64_of_isInt64 (by unfold IsInt64; omega)
  simp [parseRangeHeader, h, h2]

/-- A value converted by `ParseInt` is an `int64`. -/
theorem parseInt_isInt64 (neg : Bool) (digits : List Char) (v : Int)
    (h : parseInt neg digits = some v) : IsInt64 v := by
  unfold parseInt at h
  unfold IsInt64
  cases neg with
  | true =>
    simp only [if_true] at h
    split at h
    · simp at h
    · have hv : v = -(parseUint digits : Int) := by simpa using h.symm
      omega
  | false =>
    simp only [Bool.false_eq_true, if_false] at h
    split at h
    · simp at h
    · have hv : v = (parseUint digits : Int) := by simpa using h.symm
      omega

/-- A value scanned by the verb `%d` is an `int64`. -/
theorem scanVerbD_isInt64 (inp : List Char) (v : Int) (rest : List Char)
    (h : scanVerbD inp = some (v, rest)) : IsInt64 v := by
  unfold scanVerbD at h
  split at h
  · simp at h
  · rename_i inp1 _
    unfold scanInt at h
    split at h
    · simp at h
    · simp at h
    · rename_i r tl _
      simp only at h
      split at h
      · simp at h
      · rename_i digits rest1 _
        split at h
        · simp at h
        · rename_i v1 hv1
          have : v1 = v := by
            simp only [Option.some.injEq, Prod.mk.injEq] at h
            exact h.1
          rw [← this]
          exact parseInt_isInt64 _ _ _ hv1

/-- Both values left by the scan of a header are `int64` values. -/
theorem sscanfRange_isInt64 (header : String) :
    IsInt64 (sscanfRange header).1 ∧ IsInt64 (sscanfRange header).2 := by
  have hz : IsInt64 0 := by unfold IsInt64; omega
  unfold sscanfRange
  split
  · exact ⟨hz, hz⟩
  · split
    · exact ⟨hz, hz⟩
    · rename_i start inp2 hstart
      have hs := scanVerbD_isInt64 _ _ _ hstart
      split
      · exact ⟨hs, hz⟩
      · split
        · exact ⟨hs, hz⟩
        · rename_i end_ rest hend
          exact ⟨hs, scanVerbD_isInt64 _ _ _ hend⟩

/-! ## Range Parser: the claims -/

/-- C2, amended: for all integers with `0 ≤ start ≤ end < total`, `total` an `int64` file
length and `end ≠ 0`, `parseRangeHeader` on the header text `bytes=<start>-<end>` returns
`(start, end, end − start + 1)`; `bytes=100-299` on a 1000-byte file returns
`(100, 299, 200)`. -/
theorem parseRangeHeader_explicit_range (start end_ total : Nat) (h1 : start ≤ end_)
    (h2 : end_ < total) (h3 : total < 2 ^ 63) (h4 : end_ ≠ 0) :
    parseRangeHeader (rangeHeaderText start end_) total
      = ((start : Int), (end_ : Int), (end_ : Int) - start + 1) ∧
    parseRangeHeader "bytes=100-299" 1000 = (100, 299, 200) := by
  refine ⟨?_, by decide⟩
  rw [parseRangeHeader_of_scan _ _ (rangeHeaderText_ne_empty start end_),
    sscanfRange_rangeHeaderText start end_ (by omega) (by omega)]
  have h5 : ¬ ((end_ : Int) = 0) := by omega
  simp only [h5, if_false]
  rw [wrap64_of_isInt64 (by unfold IsInt64; omega)]

/-- The range `bytes=100-299` of a 1000-byte file. -/
theorem parseRangeHeader_explicit_range_witness :
    (100 ≤ 299 ∧ 299 < 1000 ∧ 1000 < 2 ^ 63 ∧ 299 ≠ 0) ∧
    parseRangeHeader (rangeHeaderText 100 299) (1000 : Nat)
      = (((100 : Nat) : Int), ((299 : Nat) : Int), ((299 : Nat) : Int) - (100 : Nat) + 1) :=
  ⟨by decide,
   (parseRangeHeader_explicit_range 100 299 1000 (by decide) (by decide) (by decide)
    (by decide)).1⟩

/-- C2 as stated fails at `start = end = 0`, `total = 2`: the header `bytes=0-0` yields
`(0, 1, 2)`, not `(0, 0, 1)`. -/
theorem parseRangeHeader_zero_end_counterexample :
    ¬ (∀ start end_ total : Nat, start ≤ end_ → end_ < total → total < 2 ^ 63 →
        parseRangeHeader (rangeHeaderText start end_) total
          = ((start : Int), (end_ : Int), (end_ : Int) - start + 1)) := by
  intro h
  have h2 := h 0 0 2 (by decide) (by decide) (by decide)
  revert h2
  decide

/-- C4: for every file length `total` (a non-negative `int64`), `parseRangeHeader` on the
empty header returns start 0, end `total − 1` and content length `total`; on a 1000-byte
file it returns `(0, 999, 1000)`. -/
theorem parseRangeHeader_empty (total : Int) (h0 : 0 ≤ total) (h1 : total < 2 ^ 63) :
    parseRangeHeader "" total = (0, total - 1, total) ∧
    parseRangeHeader "" 1000 = (0, 999, 1000) :=
  ⟨parseRangeHeader_empty_eq total h0 h1, by decide⟩

/-- The empty header on a 1000-byte file. -/
theorem parseRangeHeader_empty_witness :
    ((0 : Int) ≤ 1000 ∧ (1000 : Int) < 2 ^ 63) ∧
    parseRangeHeader "" 1000 = (0, 1000 - 1, 1000) :=
  ⟨by decide, (parseRangeHeader_empty 1000 (by decide) (by decide)).1⟩

/-- C5, amended: for every non-empty header and every file length `total`, when the end
value left by the scan of the header is zero, `parseRangeHeader` returns end `total − 1`
and the content length `total − start` computed in `int64` arithmetic, which is exactly
`total − start` whenever that number is an `int64`, as it is for every start that is not
negative. This is the case of `bytes=<start>-0` and of `bytes=<start>-` for every start
from 0 to `2 ^ 63 − 1`, and `bytes=0-0` returns the full file `(0, total − 1, total)`. -/
theorem parseRangeHeader_end_zero (header : String) (total : Int) (hne : header ≠ "")
    (h0 : 0 ≤ total) (h1 : total < 2 ^ 63) (hend : (sscanfRange header).2 = 0) :
    parseRangeHeader header total
      = ((sscanfRange header).1, total - 1, wrap64 (total - (sscanfRange header).1)) ∧
    (IsInt64 (total - (sscanfRange header).1) →
      parseRangeHeader header total
        = ((sscanfRange header).1, total - 1, total - (sscanfRange header).1)) ∧
    (0 ≤ (sscanfRange header).1 →
      parseRangeHeader header total
        = ((sscanfRange header).1, total - 1, total - (sscanfRange header).1)) ∧
    (∀ start : Nat, start < 2 ^ 63 →
      parseRangeHeader (rangeHeaderText start 0) total = ((start : Int), total - 1, total - start) ∧
      parseRangeHeader ("bytes=" ++ toString start ++ "-") total
        = ((start : Int), total - 1, total - start)) ∧
    parseRangeHeader "bytes=0-0" total = (0, total - 1, total) := by
  have hw : wrap64 (total - 1) = total - 1 := wrap64_of_isInt64 (by unfold IsInt64; omega)
  have key : ∀ hd : String, hd ≠ "" → (sscanfRange hd).2 = 0 →
      parseRangeHeader hd total
        = ((sscanfRange hd).1, total - 1, wrap64 (total - (sscanfRange hd).1)) := by
    intro hd hdne hz
    rw [parseRangeHeader_of_scan _ _ hdne]
    simp only [hz, if_true, hw]
    have : total - 1 - (sscanfRange hd).1 + 1 = total - (sscanfRange hd).1 := by ring
    rw [this]
  refine ⟨key header hne hend, ?_, ?_, ?_, ?_⟩
  · intro hr
    rw [key header hne hend, wrap64_of_isInt64 hr]
  · intro hnonneg
    have hs := (sscanfRange_isInt64 header).1
    rw [key header hne hend, wrap64_of_isInt64 (by unfold IsInt64 at hs ⊢; omega)]
  · intro start hs
    have hdash : sscanfRange ("bytes=" ++ toString start ++ "-") = ((start : Int), 0) := by
      have hlist : ("bytes=" ++ toString start ++ "-").toList
          = "bytes=".toList ++ (Nat.toDigits 10 start ++ '-' :: []) := by
        simp only [String.toList, String.data_append]
        rw [← String.toList, toList_toString_nat]
        simp
      rw [sscanfRange_start _ start [] hs hlist]
      · rfl
      · rw [hlist]
        have h1 := toDigits_length_le start hs
        simp only [List.length_append, List.length_cons, List.length_nil]
        have : "bytes=".toList.length = 6 := by decide
        rw [this]
        unfold hugeWid
        omega
    have hzero := sscanfRange_rangeHeaderText start 0 hs (by decide)
    have hdne : ("bytes=" ++ toString start ++ "-") ≠ "" := by
      intro h
      have h2 := congrArg String.toList h
      simp [String.toList, String.data_append] at h2
    constructor
    · rw [key _ (rangeHeaderText_ne_empty start 0) (by rw [hzero]; rfl), hzero]
      simp only
      rw [wrap64_of_isInt64 (by unfold IsInt64; omega)]
    · rw [key _ hdne (by rw [hdash]), hdash]
      simp only
      rw [wrap64_of_isInt64 (by unfold IsInt64; omega)]
  · have hs : sscanfRange "bytes=0-0" = (0, 0) := by decide
    rw [key "bytes=0-0" (by decide) (by rw [hs]), hs]
    simp only [sub_zero]
    rw [wrap64_of_isInt64 (by unfold IsInt64; omega)]

/-- The header `bytes=0-0` on a 1000-byte file: the full file, not its first byte. -/
theorem parseRangeHeader_end_zero_witness :
    ("bytes=0-0" ≠ "" ∧ (0 : Int) ≤ 1000 ∧ (1000 : Int) < 2 ^ 63 ∧
      (sscanfRange "bytes=0-0").2 = 0) ∧
    parseRangeHeader "bytes=0-0" 1000 = (0, 1000 - 1, 1000) :=
  ⟨by decide,
   (parseRangeHeader_end_zero "bytes=0-0" 1000 (by decide) (by decide) (by decide)
    (by decide)).2.2.2.2⟩

/-- C5 as stated fails: the header `bytes=-9223372036854775808-` on a 1000-byte file leaves
the end at zero and the start at the least `int64`; `total − start` is
9223372036854776808, which no `int64` holds, and the content length returned is
-9223372036854774808. -/
theorem parseRangeHeader_end_zero_counterexample :
    ¬ (∀ (header : String) (total : Int), header ≠ "" → 0 ≤ total → total < 2 ^ 63 →
        (sscanfRange header).2 = 0 →
        (parseRangeHeader header total).2.1 = total - 1 ∧
        (parseRangeHeader header total).2.2 = total - (parseRangeHeader header total).1) ∧
    (sscanfRange "bytes=-9223372036854775808-").2 = 0 ∧
    parseRangeHeader "bytes=-9223372036854775808-" 1000
      = (-9223372036854775808, 999, -9223372036854774808) ∧
    (1000 : Int) - (-9223372036854775808) = 9223372036854776808 := by
  refine ⟨fun h => ?_, by decide, by decide, by decide⟩
  have h2 := h "bytes=-9223372036854775808-" 1000 (by decide) (by decide) (by decide)
    (by decide)
  revert h2
  decide

/-! ## File Selector and Content-Type Resolver: the claims -/

/-- C6: `findLargestVideoFile` returns none exactly when no file of the list qualifies as a
video file; otherwise the file it returns sits at an index of the list, qualifies, no
qualifying file of the list is longer, and every qualifying file before that index is
strictly shorter, so it is the earliest file of maximal length among the qualifying
ones. For `[a.mp4:100, b.mkv:200, c.mp4:200]` it returns `b.mkv`. -/
theorem findLargestVideoFile_spec (files : List File) :
    (findLargestVideoFile files = none ↔ ∀ f ∈ files, isVideoFile f.path = false) ∧
    (∀ best, findLargestVideoFile files = some best →
      ∃ i : Nat, files[i]? = some best ∧ isVideoFile best.path = true ∧
        (∀ (j : Nat) (f : File), files[j]? = some f → isVideoFile f.path = true →
          f.length ≤ best.length) ∧
        (∀ (j : Nat) (f : File), j < i → files[j]? = some f → isVideoFile f.path = true →
          f.length < best.length)) ∧
    findLargestVideoFile [⟨"a.mp4", 100⟩, ⟨"b.mkv", 200⟩, ⟨"c.mp4", 200⟩]
      = some ⟨"b.mkv", 200⟩ := by
  have hinv : SelectInv files (findLargestVideoFile files) := selectInv_foldl files
  unfold SelectInv at hinv
  refine ⟨⟨hinv.1, fun hall => ?_⟩, hinv.2, by decide⟩
  cases hr : findLargestVideoFile files with
  | none => rfl
  | some best =>
    obtain ⟨i, hi, hv, _, _⟩ := hinv.2 best hr
    have := hall best (List.getElem?_mem hi)
    rw [this] at hv
    exact absurd hv (by simp)

/-- C7: `getContentType` is total and two-valued: it returns `video/x-matroska` exactly
when `filepath.Ext` of the name is `.mkv`, and `video/mp4` for every other name, among
them `.mp4`, unrecognised extensions, upper-case `.MKV` and names without extension. -/
theorem getContentType_spec (path : String) :
    (getContentType path = "video/x-matroska" ∨ getContentType path = "video/mp4") ∧
    (getContentType path = "video/x-matroska" ↔ Ext path = ".mkv") ∧
    (getContentType path = "video/mp4" ↔ Ext path ≠ ".mkv") ∧
    getContentType "movie.mkv" = "video/x-matroska" ∧
    getContentType "movie.mp4" = "video/mp4" ∧
    getContentType "movie.avi" = "video/mp4" ∧
    getContentType "movie.MKV" = "video/mp4" ∧
    getContentType "movie" = "video/mp4" := by
  refine ⟨?_, ?_, ?_, by decide, by decide, by decide, by decide, by decide⟩
  · unfold getContentType; split <;> simp
  · unfold getContentType; split <;> simp_all
  · unfold getContentType; split <;> simp_all

/-! ## Streaming Engine -/

/-- The call `WriteHeader` changes neither the body nor the connection nor the header map. -/
theorem writeHeader_fields (w : ResponseWriter) (code : Nat) :
    (w.writeHeader code).body = w.body ∧ (w.writeHeader code).writeErr = w.writeErr ∧
    (w.writeHeader code).writes = w.writes ∧ (w.writeHeader code).header = w.header := by
  unfold ResponseWriter.writeHeader
  cases w.committed <;> simp

/-- Deleting a header changes neither the body nor the connection nor the committed
status. -/
theorem delHeader_fields (w : ResponseWriter) (k : String) :
    (w.delHeader k).body = w.body ∧ (w.delHeader k).writeErr = w.writeErr ∧
    (w.delHeader k).writes = w.writes ∧ (w.delHeader k).committed = w.committed := by
  simp [ResponseWriter.delHeader]

/-- Setting a header changes neither the body nor the connection nor the committed status. -/
theorem setHeader_fields (w : ResponseWriter) (k v : String) :
    (w.setHeader k v).body = w.body ∧ (w.setHeader k v).writeErr = w.writeErr ∧
    (w.setHeader k v).writes = w.writes ∧ (w.setHeader k v).committed = w.committed := by
  simp [ResponseWriter.setHeader]

/-- On an accepting connection `Write` returns no error and appends its bytes to the body. -/
theorem write_accepts (w : ResponseWriter) (p : List UInt8) (h : Accepts w) :
    (w.write p).2 = none ∧ (w.write p).1.body = w.body ++ p ∧ Accepts (w.write p).1 := by
  obtain ⟨hb, he, hw, -⟩ := writeHeader_fields w 200
  have hnone : (w.writeHeader 200).writeErr (w.writeHeader 200).writes = none := by
    rw [he]; exact h _
  unfold ResponseWriter.write
  simp only [hnone]
  refine ⟨trivial, by simp [hb], ?_⟩
  intro k
  simp only [he]
  exact h k

/-- The call `Flush` changes neither the body nor the connection. -/
theorem flush_fields (w : ResponseWriter) :
    w.flush.body = w.body ∧ w.flush.writeErr = w.writeErr := by
  obtain ⟨hb, he, -, -⟩ := writeHeader_fields w 200
  simp [ResponseWriter.flush, hb, he]

/-- Taking as many elements as a prefix has gives that prefix. -/
theorem take_take_length {α : Type} (x : List α) (c : Nat) :
    x.take (x.take c).length = x.take c := by
  rw [List.take_eq_take]
  simp [List.length_take]

/-- A slice followed by the next chunk of the source is the slice up to the end of that
chunk. -/
theorem slice_extend (src : List UInt8) (a o c : Nat) (hao : a ≤ o) :
    slice src a o ++ (src.drop o).take c = slice src a (o + ((src.drop o).take c).length) := by
  unfold slice
  have hdrop : src.drop o = (src.drop a).drop (o - a) := by
    rw [List.drop_drop]; congr 1; omega
  have hsub : o + ((src.drop o).take c).length - a = (o - a) + ((src.drop o).take c).length := by
    omega
  rw [hsub, List.take_add, ← hdrop, take_take_length]

/-- The slice between an offset and itself is empty. -/
theorem slice_self (src : List UInt8) (a : Nat) : slice src a a = [] := by
  simp [slice]

/-- The slice of all offsets is the source. -/
theorem slice_full (src : List UInt8) : slice src 0 src.length = src := by
  simp [slice]

/-- When the `k`-th pass leaves the loop by `break` or `return`, the loop run with at least
`k` passes of fuel ends in the state after that pass. -/
theorem streamLoop_of_afterPasses_done {ρ : Type} (R : Reader ρ) (end_ : Int) (k : Nat) :
    ∀ (pos : Int) (s : Session ρ) (pos1 : Int) (s1 : Session ρ),
      afterPasses R end_ k pos s = some (pos1, s1, false) →
      ∀ fuel, k ≤ fuel → streamLoop R end_ fuel pos s = some s1 := by
  induction k with
  | zero =>
    intro pos s pos1 s1 h
    simp [afterPasses] at h
  | succ k ih =>
    intro pos s pos1 s1 h fuel hfuel
    obtain ⟨fuel, rfl⟩ : ∃ m, fuel = m + 1 := ⟨fuel - 1, by omega⟩
    by_cases hguard : pos ≤ end_
    · simp only [afterPasses, hguard, if_true] at h
      simp only [streamLoop, hguard, if_true]
      cases hbody : loopBody R pos s with
      | next pos2 s2 =>
        rw [hbody] at h
        exact ih pos2 s2 pos1 s1 h fuel (by omega)
      | done s2 =>
        rw [hbody] at h
        by_cases hk : k = 0
        · simp only [hk, if_true, Option.some.injEq, Prod.mk.injEq] at h
          rw [h.2.1]
        · simp [hk] at h
    · simp [afterPasses, hguard] at h

/-- When the guard `pos <= end` fails after `k` passes, the loop run with at least `k`
passes of fuel ends in the state after these passes. -/
theorem streamLoop_of_afterPasses_exit {ρ : Type} (R : Reader ρ) (end_ : Int) (k : Nat) :
    ∀ (pos : Int) (s : Session ρ) (pos1 : Int) (s1 : Session ρ),
      afterPasses R end_ k pos s = some (pos1, s1, true) → ¬ pos1 ≤ end_ →
      ∀ fuel, k ≤ fuel → streamLoop R end_ fuel pos s = some s1 := by
  induction k with
  | zero =>
    intro pos s pos1 s1 h hexit fuel _
    simp only [afterPasses, Option.some.injEq, Prod.mk.injEq] at h
    obtain ⟨h1, h2, -⟩ := h
    subst h1 h2
    cases fuel <;> simp [streamLoop, hexit]
  | succ k ih =>
    intro pos s pos1 s1 h hexit fuel hfuel
    obtain ⟨fuel, rfl⟩ : ∃ m, fuel = m + 1 := ⟨fuel - 1, by omega⟩
    by_cases hguard : pos ≤ end_
    · simp only [afterPasses, hguard, if_true] at h
      simp only [streamLoop, hguard, if_true]
      cases hbody : loopBody R pos s with
      | next pos2 s2 =>
        rw [hbody] at h
        exact ih pos2 s2 pos1 s1 h hexit fuel (by omega)
      | done s2 =>
        rw [hbody] at h
        by_cases hk : k = 0
        · simp [hk] at h
        · simp [hk] at h
    · simp [afterPasses, hguard] at h

/-- One pass of the loop body over a file reader, entered with `pos` at the offset of the
reader: the relation `FileInv` is kept, and either the loop is left with the source
exhausted, the reader at most one buffer further, or it goes on with `pos` at the new,
strictly larger offset of the reader. -/
theorem loopBody_file (content : File → List UInt8) (chunk : Nat → Nat) (flag : Bool)
    (src body0 : List UInt8) (a : Nat) (s : Session FileReaderState)
    (hinv : FileInv src body0 a s) (hlen : src.length < 2 ^ 63) :
    ∃ s1, FileInv src body0 a s1 ∧
      ((loopBody (fileReader content chunk flag) (s.rd.off : Int) s = .done s1 ∧
          src.length ≤ s1.rd.off ∧ s1.rd.off ≤ max s.rd.off src.length ∧
          s.rd.off ≤ s1.rd.off ∧ (flag = false → s1.rd.off = s.rd.off) ∧
          s1.rd.off ≤ s.rd.off + bufSize) ∨
       (loopBody (fileReader content chunk flag) (s.rd.off : Int) s = .next (s1.rd.off : Int) s1 ∧
          s.rd.off < s1.rd.off ∧ s1.rd.off ≤ src.length)) := by
  obtain ⟨hsrc, hacc, hao, hbody⟩ := hinv
  by_cases hend : src.length ≤ s.rd.off
  · have hread : (fileReader content chunk flag).read s.rd bufSize
        = ({ s.rd with reads := s.rd.reads + 1 }, { data := [], err := some .eof }) := by
      simp [fileReader, hsrc, hend]
    refine ⟨{ s with rd := { s.rd with reads := s.rd.reads + 1 },
                     trace := s.trace ++ [Event.read bufSize] }, ?_, Or.inl ?_⟩
    · exact ⟨hsrc, hacc, hao, hbody⟩
    · refine ⟨?_, hend, by simp, le_refl _, fun _ => rfl, Nat.le_add_right _ _⟩
      simp [loopBody, hread]
  · have hlt : s.rd.off < src.length := Nat.lt_of_not_le hend
    generalize hdata : (src.drop s.rd.off).take (min (max 1 (chunk s.rd.reads)) bufSize) = data
    have hn : data.length = min (min (max 1 (chunk s.rd.reads)) bufSize) (src.length - s.rd.off) := by
      rw [← hdata]; simp [List.length_take]
    have hbuf : bufSize = 1048576 := by decide
    have hpos : 0 < data.length := by rw [hn, hbuf]; omega
    have hle : s.rd.off + data.length ≤ src.length := by rw [hn]; omega
    have hread : (fileReader content chunk flag).read s.rd bufSize
        = ({ s.rd with off := s.rd.off + data.length, reads := s.rd.reads + 1 },
           { data := data,
             err := if flag && decide (src.length ≤ s.rd.off + data.length) then some .eof
                    else none }) := by
      rw [← hdata]
      simp [fileReader, hsrc, hend]
    obtain ⟨hw1, hw2, hw3⟩ := write_accepts s.w data hacc
    obtain ⟨hf1, hf2⟩ := flush_fields (s.w.write data).1
    have hinv1 : FileInv src body0 a
        { w := (s.w.write data).1.flush,
          rd := { s.rd with off := s.rd.off + data.length, reads := s.rd.reads + 1 },
          trace := s.trace ++ [Event.read bufSize] } := by
      refine ⟨hsrc, ?_, by simp; omega, ?_⟩
      · intro k
        simp only [hf2]
        exact hw3 k
      · simp only [hf1, hw2, hbody, List.append_assoc]
        rw [← hdata, slice_extend src a s.rd.off _ hao]
    refine ⟨_, hinv1, ?_⟩
    by_cases hfl : (flag && decide (src.length ≤ s.rd.off + data.length)) = true
    · left
      refine ⟨?_, by simpa using (by simpa using hfl : flag = true ∧ _).2, ?_, by simp, ?_, ?_⟩
      · simp only [loopBody, hread, hfl, if_true, hpos]
        rw [show s.w.write data = ((s.w.write data).1, none) from Prod.ext rfl hw1]
        simp
      · simp only
        omega
      · intro hff
        rw [hff] at hfl
        simp at hfl
      · simp only
        omega
    · right
      refine ⟨?_, by simp; omega, by simpa using hle⟩
      have hw : wrap64 ((s.rd.off : Int) + (data.length : Int)) = ((s.rd.off + data.length : Nat) : Int) := by
        rw [wrap64_of_isInt64 (by unfold IsInt64; omega)]
        push_cast; rfl
      simp only [loopBody, hread, hfl, hpos, if_true]
      rw [show s.w.write data = ((s.w.write data).1, none) from Prod.ext rfl hw1]
      have hn0 : data.length ≠ 0 := by omega
      simp [hn0, hw]

/-- Over a file reader the loop ends within `src.length - off + 1` passes, keeps `FileInv`,
and stops with the reader beyond `end` or at the end of the source. -/
theorem streamLoop_file (content : File → List UInt8) (chunk : Nat → Nat) (flag : Bool)
    (src body0 : List UInt8) (a : Nat) (end_ : Int) (hlen : src.length < 2 ^ 63)
    (fuel : Nat) : ∀ s : Session FileReaderState, FileInv src body0 a s →
      src.length - s.rd.off < fuel →
      ∃ s1, streamLoop (fileReader content chunk flag) end_ fuel (s.rd.off : Int) s = some s1 ∧
        FileInv src body0 a s1 ∧ s.rd.off ≤ s1.rd.off ∧ s1.rd.off ≤ max s.rd.off src.length ∧
        (end_ < (s1.rd.off : Int) ∨ src.length ≤ s1.rd.off) := by
  induction fuel with
  | zero => intro s _ h; omega
  | succ fuel ih =>
    intro s hinv hfuel
    by_cases hguard : (s.rd.off : Int) ≤ end_
    · obtain ⟨s1, hinv1, hstep⟩ := loopBody_file content chunk flag src body0 a s hinv hlen
      rcases hstep with ⟨hdone, h1, h2, h3, -⟩ | ⟨hnext, h1, h2⟩
      · refine ⟨s1, ?_, hinv1, h3, h2, Or.inr h1⟩
        simp [streamLoop, hguard, hdone]
      · obtain ⟨s2, hrun, hinv2, h3, h4, h5⟩ := ih s1 hinv1 (by omega)
        refine ⟨s2, ?_, hinv2, by omega, ?_, h5⟩
        · simp [streamLoop, hguard, hnext, hrun]
        · have : max s1.rd.off src.length = src.length := max_eq_right h2
          rw [this] at h4
          exact le_trans h4 (le_max_right _ _)
    · refine ⟨s, ?_, hinv, le_refl _, le_max_left _ _, Or.inl (by omega)⟩
      simp [streamLoop, hguard]

/-- Over a file reader `FileInv` holds after every number of passes; the position is never
beyond the offset of the reader and at most one buffer behind it, and it is the offset of
the reader whenever the loop is still running or end-of-stream comes as a read of its
own. -/
theorem afterPasses_file (content : File → List UInt8) (chunk : Nat → Nat) (flag : Bool)
    (src body0 : List UInt8) (a : Nat) (end_ : Int) (hlen : src.length < 2 ^ 63)
    (k : Nat) : ∀ (s : Session FileReaderState) (pos : Int) (s1 : Session FileReaderState)
      (running : Bool), FileInv src body0 a s →
      afterPasses (fileReader content chunk flag) end_ k (s.rd.off : Int) s
        = some (pos, s1, running) →
      FileInv src body0 a s1 ∧ (running = true ∨ flag = false → pos = (s1.rd.off : Int)) ∧
      pos ≤ (s1.rd.off : Int) ∧ (s1.rd.off : Int) ≤ pos + (bufSize : Int) ∧
      (a : Int) ≤ pos := by
  induction k with
  | zero =>
    intro s pos s1 running hinv h
    simp only [afterPasses, Option.some.injEq, Prod.mk.injEq] at h
    obtain ⟨h1, h2, -⟩ := h
    subst h2
    have ha := hinv.2.2.1
    exact ⟨hinv, fun _ => h1.symm, by omega, by omega, by omega⟩
  | succ k ih =>
    intro s pos s1 running hinv h
    by_cases hguard : (s.rd.off : Int) ≤ end_
    · obtain ⟨s2, hinv2, hstep⟩ := loopBody_file content chunk flag src body0 a s hinv hlen
      rcases hstep with ⟨hdone, -, -, h3, h4, h5⟩ | ⟨hnext, -, -⟩
      · simp only [afterPasses, hguard, if_true, hdone] at h
        by_cases hk : k = 0
        · simp only [hk, if_true, Option.some.injEq, Prod.mk.injEq] at h
          obtain ⟨h1, h2, h3b⟩ := h
          subst h2
          have ha := hinv.2.2.1
          refine ⟨hinv2, fun hr => ?_, by omega, by omega, by omega⟩
          rcases hr with hr | hr
          · rw [← h3b] at hr; exact absurd hr (by simp)
          · rw [← h1, h4 hr]
        · simp [hk] at h
      · simp only [afterPasses, hguard, if_true, hnext] at h
        exact ih s2 pos s1 running hinv2 h
    · simp [afterPasses, hguard] at h

/-- Opening a file reader and seeking to a non-negative `start` succeeds and establishes
`FileInv` at the offset `start`. -/
theorem openAndSeek_file (content : File → List UInt8) (chunk : Nat → Nat) (flag : Bool)
    (w : ResponseWriter) (f : File) (start : Int) (hstart : 0 ≤ start) (hacc : Accepts w) :
    (openAndSeek (fileReader content chunk flag) w f start).2 = none ∧
    FileInv (content f) w.body start.toNat
      (openAndSeek (fileReader content chunk flag) w f start).1 ∧
    (((openAndSeek (fileReader content chunk flag) w f start).1.rd.off : Nat) : Int) = start := by
  have hneg : ¬ start < 0 := by omega
  refine ⟨by simp [openAndSeek, fileReader, hneg], ⟨?_, ?_, ?_, ?_⟩, ?_⟩
  · simp [openAndSeek, fileReader, hneg]
  · simpa [openAndSeek] using hacc
  · simp [openAndSeek, fileReader, hneg]
  · simp [openAndSeek, fileReader, hneg, slice_self]
  · simp [openAndSeek, fileReader, hneg, Int.toNat_of_nonneg hstart]

/-- A session over a file reader returns, given fuel above the source length, having
appended to the body exactly the source bytes from `start` up to the final offset of the
reader; that offset is beyond `end` or at the end of the source. -/
theorem streamVideoFile_file (content : File → List UInt8) (chunk : Nat → Nat) (flag : Bool)
    (w : ResponseWriter) (f : File) (start end_ : Int) (hstart : 0 ≤ start)
    (hlen : (content f).length < 2 ^ 63) (hacc : Accepts w) (fuel : Nat)
    (hfuel : (content f).length < fuel) :
    ∃ s, streamVideoFile (fileReader content chunk flag) fuel w f start end_ = some s ∧
      s.w.body = w.body ++ slice (content f) start.toNat s.rd.off ∧
      start.toNat ≤ s.rd.off ∧ s.rd.off ≤ max start.toNat (content f).length ∧
      (end_ < (s.rd.off : Int) ∨ (content f).length ≤ s.rd.off) := by
  obtain ⟨hnone, hinv, hoff⟩ := openAndSeek_file content chunk flag w f start hstart hacc
  obtain ⟨s1, hrun, hinv1, h1, h2, h3⟩ := streamLoop_file content chunk flag (content f) w.body
    start.toNat end_ hlen fuel _ hinv (by omega)
  rw [hoff] at hrun
  have hoff2 : (openAndSeek (fileReader content chunk flag) w f start).1.rd.off = start.toNat := by
    omega
  rw [hoff2] at h1 h2
  refine ⟨closeReader (fileReader content chunk flag) s1, ?_, ?_, ?_, ?_, ?_⟩
  · unfold streamVideoFile
    rw [show openAndSeek (fileReader content chunk flag) w f start
        = ((openAndSeek (fileReader content chunk flag) w f start).1, none) from
          Prod.ext rfl hnone]
    simp [hrun]
  · exact hinv1.2.2.2
  · exact h1
  · exact h2
  · exact h3

/-- The function `handleRangeRequest` is `streamVideoFile` on the parsed range, on a
response writer with the same body and connection. -/
theorem handleRangeRequest_eq {ρ : Type} (R : Reader ρ) (fuel : Nat) (w : ResponseWriter)
    (r : Request) (f : File) (ct : String) :
    ∃ w1 : ResponseWriter, w1.body = w.body ∧ w1.writeErr = w.writeErr ∧
      handleRangeRequest R fuel w r f ct
        = streamVideoFile R fuel w1 f
            (parseRangeHeader (lookupFirst r.header "Range") f.length).1
            (parseRangeHeader (lookupFirst r.header "Range") f.length).2.1 := by
  refine ⟨_, ?_, ?_, rfl⟩
  · simp [(writeHeader_fields _ _).1, (setHeader_fields _ _ _).1]
  · simp [(writeHeader_fields _ _).2.1, (setHeader_fields _ _ _).2.1]

/-- C3: round trip. Over a reader that delivers the bytes of the file in order and without
error, in chunks of any sizes, and a sink that accepts every write, a request without a
`Range` header appends the whole file to the response body, byte for byte; the empty file
included. The copy loop needs no more passes than the file has bytes, plus one. -/
theorem full_file_round_trip (content : File → List UInt8) (chunk : Nat → Nat) (flag : Bool)
    (w : ResponseWriter) (r : Request) (f : File) (ct : String) (fuel : Nat)
    (hrange : lookupFirst r.header "Range" = "")
    (hflen : f.length = ((content f).length : Int)) (hlen : (content f).length < 2 ^ 63)
    (hacc : Accepts w) (hfuel : (content f).length < fuel) :
    (∃ s, handleRangeRequest (fileReader content chunk flag) fuel w r f ct = some s ∧
      s.w.body = w.body ++ content f) ∧
    (∃ s, streamVideoFile (fileReader content chunk flag) fuel w f
        (parseRangeHeader "" f.length).1 (parseRangeHeader "" f.length).2.1 = some s ∧
      s.w.body = w.body ++ content f) := by
  have hparse := parseRangeHeader_empty_eq f.length (by omega) (by omega)
  have key : ∀ w1 : ResponseWriter, Accepts w1 →
      ∃ s, streamVideoFile (fileReader content chunk flag) fuel w1 f 0 (f.length - 1) = some s ∧
        s.w.body = w1.body ++ content f := by
    intro w1 hacc1
    obtain ⟨s, hs, hbody, h1, h2, h3⟩ := streamVideoFile_file content chunk flag w1 f 0
      (f.length - 1) (le_refl _) hlen hacc1 fuel hfuel
    refine ⟨s, hs, ?_⟩
    have hoff : s.rd.off = (content f).length := by
      simp only [Int.toNat_zero, Nat.zero_max] at h2
      rcases h3 with h3 | h3 <;> omega
    rw [hbody, hoff, Int.toNat_zero, slice_full]
  constructor
  · obtain ⟨w1, hb, he, heq⟩ := handleRangeRequest_eq (fileReader content chunk flag) fuel w r f ct
    rw [heq, hrange, hparse]
    have hacc1 : Accepts w1 := by intro k; rw [he]; exact hacc k
    obtain ⟨s, hs, hbody⟩ := key w1 hacc1
    exact ⟨s, hs, by rw [hbody, hb]⟩
  · rw [hparse]
    exact key w hacc

/-- A three-byte file, read in chunks of two bytes, requested without a `Range` header. -/
theorem full_file_round_trip_witness :
    (lookupFirst ({ query := [], header := [] } : Request).header "Range" = "" ∧
      (3 : Int) = (([7, 8, 9] : List UInt8).length : Int) ∧
      ([7, 8, 9] : List UInt8).length < 2 ^ 63 ∧
      Accepts (ResponseWriter.fresh (fun _ => none)) ∧ ([7, 8, 9] : List UInt8).length < 4) ∧
    ∃ s, handleRangeRequest (fileReader (fun _ => [7, 8, 9]) (fun _ => 2) false) 4
        (ResponseWriter.fresh (fun _ => none)) { query := [], header := [] }
        { path := "a.mp4", length := 3 } "video/mp4" = some s ∧
      s.w.body = (ResponseWriter.fresh (fun _ => none)).body ++ [7, 8, 9] :=
  ⟨⟨by decide, by decide, by decide, fun _ => rfl, by decide⟩,
   (full_file_round_trip (fun _ => [7, 8, 9]) (fun _ => 2) false
    (ResponseWriter.fresh (fun _ => none)) { query := [], header := [] }
    { path := "a.mp4", length := 3 } "video/mp4" 4 (by decide) (by decide) (by decide)
    (fun _ => rfl) (by decide)).1⟩

/-- C8, amended: ordering invariant of one streaming session. Over a reader that delivers
the bytes of the file in order and without error, and a sink that accepts every write,
after every pass through the loop of `streamVideoFile` the body holds, after what it held
before, exactly the source bytes from offset `start` up to the offset of the reader, in
increasing offset order, none skipped, repeated or reordered. The tracked position `pos`
lies between `start` and that offset, at most one buffer behind it; it is that offset, so
that the bytes written are those at `[start, pos)`, after every pass that continues the
loop, and after every pass when end-of-stream is reported by a read of its own. The
finished session has written one contiguous run of the source beginning at `start`. -/
theorem stream_order_invariant (content : File → List UInt8) (chunk : Nat → Nat)
    (flag : Bool) (w : ResponseWriter) (f : File) (start end_ : Int) (hstart : 0 ≤ start)
    (hlen : (content f).length < 2 ^ 63) (hacc : Accepts w) :
    (∀ (k : Nat) (pos : Int) (s : Session FileReaderState) (running : Bool),
      afterPasses (fileReader content chunk flag) end_ k start
          (openAndSeek (fileReader content chunk flag) w f start).1 = some (pos, s, running) →
        s.w.body = w.body ++ slice (content f) start.toNat s.rd.off ∧
        start.toNat ≤ s.rd.off ∧
        start ≤ pos ∧ pos ≤ (s.rd.off : Int) ∧ (s.rd.off : Int) ≤ pos + 2 ^ 20 ∧
        (running = true ∨ flag = false →
          pos = (s.rd.off : Int) ∧
          s.w.body = w.body ++ slice (content f) start.toNat pos.toNat)) ∧
    (∀ fuel : Nat, (content f).length < fuel →
      ∃ s, streamVideoFile (fileReader content chunk flag) fuel w f start end_ = some s ∧
        s.w.body = w.body ++ slice (content f) start.toNat s.rd.off ∧
        start.toNat ≤ s.rd.off) := by
  obtain ⟨-, hinv, hoff⟩ := openAndSeek_file content chunk flag w f start hstart hacc
  have hbuf : bufSize = 1048576 := by decide
  constructor
  · intro k pos s running h
    have h2 : afterPasses (fileReader content chunk flag) end_ k
        (((openAndSeek (fileReader content chunk flag) w f start).1.rd.off : Nat) : Int)
        (openAndSeek (fileReader content chunk flag) w f start).1 = some (pos, s, running) := by
      rw [hoff]; exact h
    obtain ⟨hinv1, hpos, hle1, hle2, hge⟩ := afterPasses_file content chunk flag (content f)
      w.body start.toNat end_ hlen k _ pos s running hinv h2
    refine ⟨hinv1.2.2.2, hinv1.2.2.1, by omega, hle1, by omega, fun hr => ?_⟩
    have hp := hpos hr
    refine ⟨hp, ?_⟩
    rw [hp, Int.toNat_ofNat]
    exact hinv1.2.2.2
  · intro fuel hfuel
    obtain ⟨s, hs, hbody, h1, -, -⟩ := streamVideoFile_file content chunk flag w f start end_
      hstart hlen hacc fuel hfuel
    exact ⟨s, hs, hbody, h1⟩

/-- C8 as stated fails: over a reader that returns its last bytes together with `io.EOF`,
five source bytes streamed from offset 1 with the four remaining bytes delivered by the
first read, the loop breaks before `pos += n`: after this one pass the position is still
1 while the body holds the bytes at the offsets 1 to 4, not those at `[1, 1)`. -/
theorem stream_order_counterexample :
    (afterPasses (fileReader (fun _ => [10, 11, 12, 13, 14]) (fun _ => 4) true) 2 1 1
        (openAndSeek (fileReader (fun _ => [10, 11, 12, 13, 14]) (fun _ => 4) true)
          (ResponseWriter.fresh (fun _ => none)) { path := "a.mp4", length := 5 } 1).1).map
      (fun x => (x.1, x.2.1.w.body, x.2.1.rd.off, x.2.2))
        = some (1, [11, 12, 13, 14], 5, false) ∧
    slice [10, 11, 12, 13, 14] (1 : Int).toNat (1 : Int).toNat = [] ∧
    ¬ (([11, 12, 13, 14] : List UInt8) = (ResponseWriter.fresh (fun _ => none)).body
        ++ slice [10, 11, 12, 13, 14] (1 : Int).toNat (1 : Int).toNat) := by
  decide

/-- A concrete session: five source bytes read in chunks of two, streamed from offset 1
up to offset 3. After one pass the body holds the bytes at the offsets 1 and 2 and the
position is 3; the session ends with the bytes at the offsets 1 to 4 in the body. -/
theorem stream_order_invariant_witness :
    ((0 : Int) ≤ 1 ∧ ([10, 11, 12, 13, 14] : List UInt8).length < 2 ^ 63 ∧
      Accepts (ResponseWriter.fresh (fun _ => none))) ∧
    (afterPasses (fileReader (fun _ => [10, 11, 12, 13, 14]) (fun _ => 2) false) 3 1 1
        (openAndSeek (fileReader (fun _ => [10, 11, 12, 13, 14]) (fun _ => 2) false)
          (ResponseWriter.fresh (fun _ => none)) { path := "a.mp4", length := 5 } 1).1).map
      (fun x => (x.1, x.2.1.w.body, x.2.1.rd.off, x.2.2)) = some (3, [11, 12], 3, true) ∧
    ∃ s, streamVideoFile (fileReader (fun _ => [10, 11, 12, 13, 14]) (fun _ => 2) false) 6
        (ResponseWriter.fresh (fun _ => none)) { path := "a.mp4", length := 5 } 1 3 = some s ∧
      s.w.body = (ResponseWriter.fresh (fun _ => none)).body
        ++ slice [10, 11, 12, 13, 14] (1 : Int).toNat s.rd.off ∧
      (1 : Int).toNat ≤ s.rd.off :=
  ⟨⟨by decide, by decide, fun _ => rfl⟩, by decide,
   (stream_order_invariant (fun _ => [10, 11, 12, 13, 14]) (fun _ => 2) false
    (ResponseWriter.fresh (fun _ => none)) { path := "a.mp4", length := 5 } 1 3 (by decide)
    (by decide) (fun _ => rfl)).2 6 (by decide)⟩

/-- C1, at the failing input: the source holds the five bytes 10 to 14, the range is
`start = 1`, `end = 2` (so `total = 2`), and the reader delivers four bytes in its first
read. The session writes all four bytes 11 to 14 to the sink, two more than `total`: the
last chunk read is written whole, past `end`. The same request handled by
`handleRangeRequest` with the header `Range: bytes=1-2` commits status 206 with
`Content-Length: 2` and then writes these four bytes. -/
theorem stream_overshoots_range :
    (streamVideoFile (fileReader (fun _ => [10, 11, 12, 13, 14]) (fun _ => 4) false) 3
        (ResponseWriter.fresh (fun _ => none)) { path := "a.mp4", length := 5 } 1 2).map
      (fun s => s.w.body) = some [11, 12, 13, 14] ∧
    ([11, 12, 13, 14] : List UInt8).length = 4 ∧ ((2 : Int) - 1 + 1 = 2) ∧
    (handleRangeRequest (fileReader (fun _ => [10, 11, 12, 13, 14]) (fun _ => 4) false) 3
        (ResponseWriter.fresh (fun _ => none))
        { query := [], header := [("Range", "bytes=1-2")] }
        { path := "a.mp4", length := 5 } "video/mp4").map
      (fun s => (s.w.status, s.w.committed.map (fun c => lookupFirst c.2 "Content-Length"),
        s.w.body)) = some (some 206, some "2", [11, 12, 13, 14]) := by
  decide

/-- C9 as stated fails: over a reader whose seek to `start = -1` fails, the session ends
with a response body that is not empty; it holds the text of the error. -/
theorem seek_failure_body_counterexample :
    ((fileReader (fun _ => [10, 11, 12]) (fun _ => 2) false).seek
        ((fileReader (fun _ => [10, 11, 12]) (fun _ => 2) false).newReader
          { path := "a.mp4", length := 3 }) (-1)).2 = some (.other "negative position") ∧
    (streamVideoFile (fileReader (fun _ => [10, 11, 12]) (fun _ => 2) false) 3
        (ResponseWriter.fresh (fun _ => none)) { path := "a.mp4", length := 3 } (-1) 2).map
      (fun s => s.w.body) = some (bytesOf "Error seeking in file: negative position\n") ∧
    bytesOf "Error seeking in file: negative position\n" ≠ [] := by
  decide

/-- The body after `Write`: the bytes are appended when the connection accepts them. -/
theorem write_body (w : ResponseWriter) (p : List UInt8) :
    (w.write p).1.body = w.body ++ (if w.writeErr w.writes = none then p else []) := by
  obtain ⟨hb, he, hw, -⟩ := writeHeader_fields w 200
  unfold ResponseWriter.write
  simp only
  rw [he, hw]
  cases w.writeErr w.writes <;> simp [hb]

/-- The body after `http.Error`: the message and a newline are appended when the
connection accepts them. -/
theorem httpError_body (w : ResponseWriter) (msg : String) (code : Nat) :
    (httpError w msg code).body
      = w.body ++ (if w.writeErr w.writes = none then bytesOf (msg ++ "\n") else []) := by
  unfold httpError
  simp only
  rw [write_body, (writeHeader_fields _ _).1, (writeHeader_fields _ _).2.1,
    (writeHeader_fields _ _).2.2.1]
  simp only [(setHeader_fields _ _ _).1, (setHeader_fields _ _ _).2.1,
    (setHeader_fields _ _ _).2.2.1, (delHeader_fields _ _).1, (delHeader_fields _ _).2.1,
    (delHeader_fields _ _).2.2.1]

/-- C9, amended: for every reader whose seek to `start` fails with an error `e`,
`streamVideoFile` returns at once, whatever the fuel: it has opened the reader, sought and
closed it, and has made no `Read`; the response writer is the one left by
`http.Error` with the message "Error seeking in file: e", so the body holds what it held
before, followed by that message and a newline when the connection accepts the write,
and by nothing otherwise. -/
theorem seek_failure_no_read {ρ : Type} (R : Reader ρ) (fuel : Nat) (w : ResponseWriter)
    (f : File) (start end_ : Int) (e : GoError)
    (hseek : (R.seek (R.newReader f) start).2 = some e) :
    ∃ s, streamVideoFile R fuel w f start end_ = some s ∧
      s.trace = [.newReader f.path, .seek start, .close] ∧
      (∀ len, Event.read len ∉ s.trace) ∧
      s.w = httpError w ("Error seeking in file: " ++ e.text) 500 ∧
      s.w.body = w.body ++
        (if w.writeErr w.writes = none then bytesOf ("Error seeking in file: " ++ e.text ++ "\n")
         else []) := by
  have hopen : openAndSeek R w f start = ((openAndSeek R w f start).1, some e) :=
    Prod.ext rfl hseek
  refine ⟨closeReader R { (openAndSeek R w f start).1 with
      w := httpError (openAndSeek R w f start).1.w ("Error seeking in file: " ++ e.text) 500 },
    ?_, ?_, ?_, ?_, ?_⟩
  · unfold streamVideoFile
    rw [hopen]
  · simp [closeReader, openAndSeek]
  · intro len
    simp [closeReader, openAndSeek]
  · simp [closeReader, openAndSeek]
  · simp only [closeReader, openAndSeek]
    rw [httpError_body, String.append_assoc]

/-- A concrete failing seek: the file reader refuses the offset -1. -/
theorem seek_failure_no_read_witness :
    ((fileReader (fun _ => [10, 11, 12]) (fun _ => 2) false).seek
        ((fileReader (fun _ => [10, 11, 12]) (fun _ => 2) false).newReader
          { path := "a.mp4", length := 3 }) (-1)).2 = some (.other "negative position") ∧
    ∃ s, streamVideoFile (fileReader (fun _ => [10, 11, 12]) (fun _ => 2) false) 3
        (ResponseWriter.fresh (fun _ => none)) { path := "a.mp4", length := 3 } (-1) 2 = some s ∧
      s.trace = [.newReader "a.mp4", .seek (-1), .close] :=
  ⟨by decide,
   (seek_failure_no_read (fileReader (fun _ => [10, 11, 12]) (fun _ => 2) false) 3
      (ResponseWriter.fresh (fun _ => none)) { path := "a.mp4", length := 3 } (-1) 2
      (.other "negative position") (by decide)).imp (fun _ h => ⟨h.1, h.2.1⟩)⟩

/-! ## Stream Handler -/

/-- A key that is not stored yields the empty string. -/
theorem lookupFirst_missing (kvs : List (String × String)) (key : String)
    (h : ∀ kv ∈ kvs, kv.1 ≠ key) : lookupFirst kvs key = "" := by
  have : kvs.find? (fun kv => kv.1 == key) = none := by
    rw [List.find?_eq_none]
    intro kv hkv
    simpa using h kv hkv
  simp [lookupFirst, this]

/-- On a response writer without committed status `http.Error` commits its status code. -/
theorem httpError_status (w : ResponseWriter) (msg : String) (code : Nat)
    (h : w.committed = none) : (httpError w msg code).status = some code := by
  simp only [httpError, ResponseWriter.write, ResponseWriter.status]
  have h0 : (((w.delHeader "Content-Length").setHeader "Content-Type"
      "text/plain; charset=utf-8").setHeader "X-Content-Type-Options" "nosniff").committed
      = none := by
    rw [(setHeader_fields _ _ _).2.2.2, (setHeader_fields _ _ _).2.2.2,
      (delHeader_fields _ _).2.2.2, h]
  generalize (((w.delHeader "Content-Length").setHeader "Content-Type"
      "text/plain; charset=utf-8").setHeader "X-Content-Type-Options" "nosniff") = w0 at h0 ⊢
  have h1 : (w0.writeHeader code).committed = some (code, w0.header) := by
    simp [ResponseWriter.writeHeader, h0]
  generalize w0.writeHeader code = w1 at h1 ⊢
  have h2 : (w1.writeHeader 200) = w1 := by simp [ResponseWriter.writeHeader, h1]
  rw [h2]
  cases w1.writeErr w1.writes <;> simp [h1]

/-- C10: when the `magnet` query parameter is missing or empty, the handler of `/stream`
answers with `http.Error(w, "Magnet link is required", 400)` and returns without a single
call on the Content Source or on a reader: no locator is resolved, no file list is read
or selected from, no reader is opened. On the response writer of a new request the status
sent is 400. -/
theorem missing_magnet_bad_request {ρ : Type} (C : Client ρ) (fuel : Nat)
    (w : ResponseWriter) (r : Request)
    (h : (∀ kv ∈ r.query, kv.1 ≠ "magnet") ∨ lookupFirst r.query "magnet" = "") :
    streamHandler C fuel w r = some (httpError w "Magnet link is required" 400, []) ∧
    (w.committed = none → (httpError w "Magnet link is required" 400).status = some 400) ∧
    (∀ writeErr, ∃ w1, streamHandler C fuel (ResponseWriter.fresh writeErr) r = some (w1, []) ∧
      w1.status = some 400) := by
  have hm : lookupFirst r.query "magnet" = "" := by
    rcases h with h | h
    · exact lookupFirst_missing _ _ h
    · exact h
  have hrun : ∀ w0 : ResponseWriter,
      streamHandler C fuel w0 r = some (httpError w0 "Magnet link is required" 400, []) := by
    intro w0
    simp [streamHandler, hm]
  refine ⟨hrun w, httpError_status w _ 400, fun writeErr => ?_⟩
  exact ⟨_, hrun _, httpError_status _ _ 400 rfl⟩

/-- A request without any query parameter, on a client that would accept every magnet
link: the handler answers 400 and calls nothing. -/
theorem missing_magnet_bad_request_witness :
    ((∀ kv ∈ ({ query := [], header := [] } : Request).query, kv.1 ≠ "magnet") ∨
      lookupFirst ({ query := [], header := [] } : Request).query "magnet" = "") ∧
    ∃ w1, streamHandler
        { addMagnet := fun _ => .ok { gotInfo := true, files := [] },
          reader := fileReader (fun _ => []) (fun _ => 1) false }
        1 (ResponseWriter.fresh (fun _ => none)) { query := [], header := [] } = some (w1, []) ∧
      w1.status = some 400 :=
  ⟨Or.inr (by decide),
   (missing_magnet_bad_request
      { addMagnet := fun _ => .ok { gotInfo := true, files := [] },
        reader := fileReader (fun _ => []) (fun _ => 1) false }
      1 (ResponseWriter.fresh (fun _ => none)) { query := [], header := [] }
      (Or.inr (by decide))).2.2 (fun _ => none)⟩

/-- When no file of the list qualifies, `findLargestVideoFile` returns `nil`. -/
theorem findLargestVideoFile_none_of_no_video (files : List File)
    (h : ∀ f ∈ files, isVideoFile f.path = false) : findLargestVideoFile files = none := by
  have hinv : SelectInv files (findLargestVideoFile files) := selectInv_foldl files
  unfold SelectInv at hinv
  cases hr : findLargestVideoFile files with
  | none => rfl
  | some best =>
    obtain ⟨i, hi, hv, -, -⟩ := hinv.2 best hr
    have := h best (List.getElem?_mem hi)
    rw [this] at hv
    exact absurd hv (by simp)

/-- The response left by `http.Error` on the response writer of a new request: the status
code with the two plain-text headers, and nothing else in the header map. -/
theorem httpError_fresh (writeErr : Nat → Option GoError) (msg : String) (code : Nat) :
    (httpError (ResponseWriter.fresh writeErr) msg code).committed
      = some (code, [("Content-Type", "text/plain; charset=utf-8"),
          ("X-Content-Type-Options", "nosniff")]) ∧
    (httpError (ResponseWriter.fresh writeErr) msg code).header
      = [("Content-Type", "text/plain; charset=utf-8"),
          ("X-Content-Type-Options", "nosniff")] := by
  cases h : writeErr 0 <;>
    simp [httpError, ResponseWriter.fresh, ResponseWriter.delHeader, ResponseWriter.setHeader,
      ResponseWriter.writeHeader, ResponseWriter.write, h]

/-- C11: for a request with a non-empty locator that the Content Source resolves to a file
list without any qualifying video file (the empty list included), the handler of `/stream`
answers with `http.Error(w, "No video file found in the torrent", 404)` after the calls
`AddMagnet`, `GotInfo` and `Files`, and calls nothing else: no reader is opened, sought or
read. On the response writer of a new request the status sent is 404, not 206, and neither
the headers sent nor the header map hold `Content-Range`, `Accept-Ranges` or
`Content-Length`. -/
theorem no_video_not_found {ρ : Type} (C : Client ρ) (fuel : Nat) (w : ResponseWriter)
    (r : Request) (t : Torrent) (hm : lookupFirst r.query "magnet" ≠ "")
    (hadd : C.addMagnet (lookupFirst r.query "magnet") = .ok t) (hinfo : t.gotInfo = true)
    (hnone : ∀ f ∈ t.files, isVideoFile f.path = false) :
    streamHandler C fuel w r
      = some (httpError w "No video file found in the torrent" 404,
          [.addMagnet (lookupFirst r.query "magnet"), .gotInfo, .files]) ∧
    (∀ writeErr, ∃ w1 calls,
      streamHandler C fuel (ResponseWriter.fresh writeErr) r = some (w1, calls) ∧
      w1.status = some 404 ∧ w1.status ≠ some 206 ∧
      (∀ p, Event.newReader p ∉ calls) ∧ (∀ off, Event.seek off ∉ calls) ∧
      (∀ len, Event.read len ∉ calls) ∧
      (∀ sent, w1.committed = some (404, sent) →
        lookupFirst sent "Content-Range" = "" ∧ lookupFirst sent "Accept-Ranges" = "" ∧
        lookupFirst sent "Content-Length" = "") ∧
      lookupFirst w1.header "Content-Range" = "" ∧ lookupFirst w1.header "Accept-Ranges" = "" ∧
      lookupFirst w1.header "Content-Length" = "") := by
  have hsel := findLargestVideoFile_none_of_no_video t.files hnone
  have hrun : ∀ w0 : ResponseWriter, streamHandler C fuel w0 r
      = some (httpError w0 "No video file found in the torrent" 404,
          [.addMagnet (lookupFirst r.query "magnet"), .gotInfo, .files]) := by
    intro w0
    simp [streamHandler, hm, hadd, hinfo, hsel]
  refine ⟨hrun w, fun writeErr => ⟨_, _, hrun _, ?_⟩⟩
  obtain ⟨hc, hh⟩ := httpError_fresh writeErr "No video file found in the torrent" 404
  refine ⟨by simp [ResponseWriter.status, hc], by simp [ResponseWriter.status, hc],
    by simp, by simp, by simp, ?_, ?_⟩
  · intro sent hsent
    rw [hc] at hsent
    have : sent = [("Content-Type", "text/plain; charset=utf-8"),
        ("X-Content-Type-Options", "nosniff")] := by
      simp only [Option.some.injEq, Prod.mk.injEq, true_and] at hsent
      exact hsent.symm
    subst this
    decide
  · rw [hh]
    decide

/-- A torrent that holds a text file and an upper-case `.MKV` file, neither qualifying. -/
theorem no_video_not_found_witness :
    (lookupFirst ({ query := [("magnet", "magnet:?xt=urn:btih:abc")], header := [] } : Request).query
        "magnet" ≠ "" ∧
      (∀ f ∈ ([⟨"readme.txt", 10⟩, ⟨"a.MKV", 99⟩] : List File), isVideoFile f.path = false)) ∧
    ∃ w1 calls, streamHandler
        { addMagnet := fun _ => .ok { gotInfo := true, files := [⟨"readme.txt", 10⟩, ⟨"a.MKV", 99⟩] },
          reader := fileReader (fun _ => []) (fun _ => 1) false }
        1 (ResponseWriter.fresh (fun _ => none))
        { query := [("magnet", "magnet:?xt=urn:btih:abc")], header := [] } = some (w1, calls) ∧
      w1.status = some 404 :=
  ⟨⟨by decide, by decide⟩,
   ((no_video_not_found
      { addMagnet := fun _ => .ok { gotInfo := true, files := [⟨"readme.txt", 10⟩, ⟨"a.MKV", 99⟩] },
        reader := fileReader (fun _ => []) (fun _ => 1) false }
      1 (ResponseWriter.fresh (fun _ => none))
      { query := [("magnet", "magnet:?xt=urn:btih:abc")], header := [] }
      { gotInfo := true, files := [⟨"readme.txt", 10⟩, ⟨"a.MKV", 99⟩] }
      (by decide) rfl rfl (by decide)).2 (fun _ => none)).imp
    (fun _ h => h.imp (fun _ h2 => ⟨h2.1, h2.2.1⟩))⟩

/-! ## Range Parser: what holds for every header -/

/-- The reduction into `int64` yields an `int64`. -/
theorem wrap64_isInt64 (x : Int) : IsInt64 (wrap64 x) := by
  unfold IsInt64 wrap64
  omega

/-- The triple of `parseRangeHeader` for a file length that is a non-negative `int64`:
start and end are `int64` values and the content length is `end − start + 1` reduced
into `int64`. -/
theorem parseRangeHeader_fields (header : String) (total : Int) :
    IsInt64 (parseRangeHeader header total).1 ∧
    IsInt64 (parseRangeHeader header total).2.1 ∧
    (parseRangeHeader header total).2.2
      = wrap64 ((parseRangeHeader header total).2.1 - (parseRangeHeader header total).1 + 1) := by
  have hz : IsInt64 0 := by unfold IsInt64; omega
  by_cases hne : header = ""
  · subst hne
    refine ⟨hz, wrap64_isInt64 _, ?_⟩
    simp [parseRangeHeader, wrap64_wrap64_add]
  · rw [parseRangeHeader_of_scan _ _ hne]
    obtain ⟨h1, h2⟩ := sscanfRange_isInt64 header
    refine ⟨h1, ?_, rfl⟩
    simp only
    split
    · exact wrap64_isInt64 _
    · exact h2

/-- C12, amended: for every header and every file length `total ≥ 0`, the triple returned
by `parseRangeHeader` holds two `int64` values `start` and `end` and the content length
`end − start + 1` computed in `int64`, which is exactly `end − start + 1` whenever that
number is an `int64`. For the empty header and `total ≥ 1` the range is also ordered,
`0 ≤ start ≤ end`. -/
theorem parseRangeHeader_triple (header : String) (total : Int) (h0 : 0 ≤ total)
    (h1 : total < 2 ^ 63) :
    IsInt64 (parseRangeHeader header total).1 ∧
    IsInt64 (parseRangeHeader header total).2.1 ∧
    (parseRangeHeader header total).2.2
      = wrap64 ((parseRangeHeader header total).2.1 - (parseRangeHeader header total).1 + 1) ∧
    (IsInt64 ((parseRangeHeader header total).2.1 - (parseRangeHeader header total).1 + 1) →
      (parseRangeHeader header total).2.2
        = (parseRangeHeader header total).2.1 - (parseRangeHeader header total).1 + 1) ∧
    (header = "" → 1 ≤ total →
      0 ≤ (parseRangeHeader header total).1 ∧
      (parseRangeHeader header total).1 ≤ (parseRangeHeader header total).2.1) := by
  obtain ⟨hs, he, hlen⟩ := parseRangeHeader_fields header total
  refine ⟨hs, he, hlen, fun hr => ?_, fun hempty hpos => ?_⟩
  · rw [hlen, wrap64_of_isInt64 hr]
  · subst hempty
    rw [parseRangeHeader_empty_eq total h0 h1]
    dsimp only
    omega

/-- The header `bytes=100-299` on a 1000-byte file. -/
theorem parseRangeHeader_triple_witness :
    ((0 : Int) ≤ 1000 ∧ (1000 : Int) < 2 ^ 63) ∧
    (parseRangeHeader "bytes=100-299" 1000).2.2
      = wrap64 ((parseRangeHeader "bytes=100-299" 1000).2.1
          - (parseRangeHeader "bytes=100-299" 1000).1 + 1) :=
  ⟨by decide, (parseRangeHeader_triple "bytes=100-299" 1000 (by decide) (by decide)).2.2.1⟩

/-- C12 as stated fails: the header `bytes=5-2` on a 10-byte file yields `(5, 2, -2)`, with
`start > end`; the header `bytes=-5-` yields a negative start; and the empty header on an
empty file yields `(0, -1, 0)`. -/
theorem parseRangeHeader_order_counterexample :
    ¬ (∀ (header : String) (total : Int), 0 ≤ total →
        0 ≤ (parseRangeHeader header total).1 ∧
        (parseRangeHeader header total).1 ≤ (parseRangeHeader header total).2.1 ∧
        (parseRangeHeader header total).2.2
          = (parseRangeHeader header total).2.1 - (parseRangeHeader header total).1 + 1) ∧
    parseRangeHeader "bytes=5-2" 10 = (5, 2, -2) ∧
    parseRangeHeader "bytes=-5-" 10 = (-5, 9, 15) ∧
    parseRangeHeader "" 0 = (0, -1, 0) := by
  refine ⟨fun h => ?_, by decide, by decide, by decide⟩
  have h2 := h "bytes=5-2" 10 (by decide)
  revert h2
  decide

/-- C13, amended: for every header and every file length `total ≥ 0`, when the start that
`parseRangeHeader` returns is at or beyond `total`, the content length it returns is
negative or zero whenever the returned end is below the returned start and
`end − start + 1` is not below the least `int64`; it is then exactly `end − start + 1`.
That is so in particular whenever the header leaves the end at zero (it is empty, gives
no end, or gives the end 0), where end is `total − 1` and the content length is
`total − start`. With a returned end at or beyond the start the content length is
positive, short of the overflow at `2 ^ 63`. -/
theorem parseRangeHeader_start_beyond (header : String) (total : Int) (h0 : 0 ≤ total)
    (h1 : total < 2 ^ 63) (hstart : total ≤ (parseRangeHeader header total).1) :
    ((parseRangeHeader header total).2.1 < (parseRangeHeader header total).1 →
      -(2 ^ 63) ≤ (parseRangeHeader header total).2.1 - (parseRangeHeader header total).1 + 1 →
      (parseRangeHeader header total).2.2
        = (parseRangeHeader header total).2.1 - (parseRangeHeader header total).1 + 1 ∧
      (parseRangeHeader header total).2.2 ≤ 0) ∧
    (header = "" ∨ (sscanfRange header).2 = 0 →
      (parseRangeHeader header total).2.1 = total - 1 ∧
      (parseRangeHeader header total).2.2 = total - (parseRangeHeader header total).1 ∧
      (parseRangeHeader header total).2.2 ≤ 0) ∧
    ((parseRangeHeader header total).1 ≤ (parseRangeHeader header total).2.1 →
      (parseRangeHeader header total).2.1 - (parseRangeHeader header total).1 + 1 < 2 ^ 63 →
      0 < (parseRangeHeader header total).2.2) := by
  obtain ⟨hs, he, hlen⟩ := parseRangeHeader_fields header total
  refine ⟨fun hlt hlow => ?_, fun hend => ?_, fun hle hhigh => ?_⟩
  · rw [hlen, wrap64_of_isInt64 (by unfold IsInt64; omega)]
    exact ⟨rfl, by omega⟩
  · by_cases hne : header = ""
    · subst hne
      rw [parseRangeHeader_empty_eq total h0 h1] at hstart ⊢
      dsimp only at hstart ⊢
      omega
    · have hz : (sscanfRange header).2 = 0 := by
        rcases hend with h | h
        · exact absurd h hne
        · exact h
      have hw : wrap64 (total - 1) = total - 1 := wrap64_of_isInt64 (by unfold IsInt64; omega)
      have hs2 := (sscanfRange_isInt64 header).1
      have heq : parseRangeHeader header total
          = ((sscanfRange header).1, total - 1, wrap64 (total - (sscanfRange header).1)) := by
        rw [parseRangeHeader_of_scan _ _ hne]
        simp only [hz, if_true, hw]
        have : total - 1 - (sscanfRange header).1 + 1 = total - (sscanfRange header).1 := by ring
        rw [this]
      rw [heq] at hstart ⊢
      dsimp only at hstart ⊢
      rw [wrap64_of_isInt64 (by unfold IsInt64 at hs2 ⊢; omega)]
      omega
  · rw [hlen, wrap64_of_isInt64 (by unfold IsInt64; omega)]
    omega

/-- The header `bytes=2000-500` on a 1000-byte file: the start is beyond the file, the end
is below the start, and the content length is -1499. -/
theorem parseRangeHeader_start_beyond_witness :
    ((0 : Int) ≤ 1000 ∧ (1000 : Int) < 2 ^ 63 ∧
      (1000 : Int) ≤ (parseRangeHeader "bytes=2000-500" 1000).1) ∧
    (parseRangeHeader "bytes=2000-500" 1000).2.2
      = (parseRangeHeader "bytes=2000-500" 1000).2.1
        - (parseRangeHeader "bytes=2000-500" 1000).1 + 1 ∧
    (parseRangeHeader "bytes=2000-500" 1000).2.2 ≤ 0 :=
  ⟨by decide,
   (parseRangeHeader_start_beyond "bytes=2000-500" 1000 (by decide) (by decide)
    (by decide)).1 (by decide) (by decide)⟩

/-- C13 as stated fails: the header `bytes=2000-3000` on a 1000-byte file yields the start
2000, beyond the file, and the positive content length 1001. And with an end far below
the start the subtraction overflows: `bytes=9223372036854775807--9223372036854775808`
yields the content length 2. -/
theorem parseRangeHeader_start_beyond_counterexample :
    ¬ (∀ (header : String) (total : Int), 0 ≤ total →
        total ≤ (parseRangeHeader header total).1 → (parseRangeHeader header total).2.2 ≤ 0) ∧
    parseRangeHeader "bytes=2000-3000" 1000 = (2000, 3000, 1001) ∧
    parseRangeHeader "bytes=9223372036854775807--9223372036854775808" 1000
      = (9223372036854775807, -9223372036854775808, 2) := by
  refine ⟨fun h => ?_, by decide, by decide⟩
  have h2 := h "bytes=2000-3000" 1000 (by decide) (by decide)
  revert h2
  decide

/-! ## `filepath.Ext` and suffixes -/

/-- The loop of `filepath.Ext` over a run of characters that are neither a dot nor a
separator, followed by a dot: the result is the dot and what was passed. -/
theorem extLoop_append (pre rest acc : List Char)
    (hpre : ∀ x ∈ pre, x ≠ '.' ∧ isPathSeparator x = false) :
    extLoop (pre ++ '.' :: rest) acc = '.' :: (pre.reverse ++ acc) := by
  induction pre generalizing acc with
  | nil => simp [extLoop, isPathSeparator]
  | cons x pre ih =>
    obtain ⟨h1, h2⟩ := hpre x (by simp)
    have hrest : ∀ y ∈ pre, y ≠ '.' ∧ isPathSeparator y = false :=
      fun y hy => hpre y (by simp [hy])
    have hstep : extLoop (x :: pre ++ '.' :: rest) acc = extLoop (pre ++ '.' :: rest) (x :: acc) := by
      show extLoop (x :: (pre ++ '.' :: rest)) acc = _
      simp only [extLoop, h2, Bool.false_eq_true, if_false, h1]
    rw [hstep, ih (x :: acc) hrest]
    simp

/-- A non-empty result of the loop of `filepath.Ext` begins at a dot of the input that is
preceded, in walking order, only by characters that are neither dots nor separators. -/
theorem extLoop_eq_cons (rev acc out : List Char) (c : Char) (h : extLoop rev acc = c :: out) :
    ∃ pre rest, rev = pre ++ '.' :: rest ∧
      (∀ x ∈ pre, x ≠ '.' ∧ isPathSeparator x = false) ∧
      c :: out = '.' :: (pre.reverse ++ acc) := by
  induction rev generalizing acc with
  | nil => simp [extLoop] at h
  | cons x rev ih =>
    unfold extLoop at h
    by_cases hsep : isPathSeparator x = true
    · simp [hsep] at h
    · have hsep2 : isPathSeparator x = false := by simpa using hsep
      simp only [hsep2, Bool.false_eq_true, if_false] at h
      by_cases hdot : x = '.'
      · refine ⟨[], rev, by simp [hdot], by simp, ?_⟩
        simp only [hdot, if_true] at h
        simp [← h]
      · simp only [hdot, if_false] at h
        obtain ⟨pre, rest, h1, h2, h3⟩ := ih (x :: acc) h
        refine ⟨x :: pre, rest, by simp [h1], ?_, ?_⟩
        · intro y hy
          rcases List.mem_cons.mp hy with hy | hy
          · rw [hy]; exact ⟨hdot, hsep2⟩
          · exact h2 y hy
        · rw [h3]; simp

/-- The extension of a path is a given dot followed by three characters that are neither
dots nor separators exactly when the path ends with these four characters. -/
theorem ext_eq_iff_suffix (path : String) (a b c : Char)
    (ha : a ≠ '.' ∧ isPathSeparator a = false) (hb : b ≠ '.' ∧ isPathSeparator b = false)
    (hc : c ≠ '.' ∧ isPathSeparator c = false) :
    Ext path = String.mk ['.', a, b, c] ↔ ['.', a, b, c] <:+ path.toList := by
  have hext : Ext path = String.mk ['.', a, b, c]
      ↔ extLoop path.toList.reverse [] = ['.', a, b, c] := by
    unfold Ext
    constructor
    · intro h; exact congrArg String.data h
    · intro h; rw [h]
  rw [hext]
  constructor
  · intro h
    obtain ⟨pre, rest, h1, -, h3⟩ := extLoop_eq_cons _ _ _ _ h
    have hpre : pre.reverse = [a, b, c] := by simpa using h3.symm
    have hpre2 : pre = [c, b, a] := by
      have := congrArg List.reverse hpre
      simpa using this
    refine ⟨rest.reverse, ?_⟩
    have hrev := congrArg List.reverse h1
    rw [List.reverse_reverse] at hrev
    rw [hrev, hpre2]
    simp
  · rintro ⟨t, ht⟩
    have hrev : path.toList.reverse = [c, b, a] ++ '.' :: t.reverse := by
      rw [← ht]; simp
    rw [hrev, extLoop_append [c, b, a] t.reverse []]
    · simp
    · intro x hx
      simp only [List.mem_cons, List.mem_singleton, List.not_mem_nil, or_false] at hx
      rcases hx with h | h | h <;> rw [h] <;> assumption

/-- C14: `isVideoFile`, which compares `filepath.Ext` of the path with `.mp4` and `.mkv`,
returns true exactly when the path ends with the exact, case-sensitive suffix `.mp4` or
`.mkv`: the code's test and the suffix rule of the specification agree on every path. -/
theorem isVideoFile_iff_suffix (path : String) :
    (isVideoFile path = true ↔
      (".mp4".toList <:+ path.toList ∨ ".mkv".toList <:+ path.toList)) ∧
    isVideoFile path = endsWithVideoSuffix path ∧
    isVideoFile "a/b.c/movie.mkv" = true ∧ isVideoFile "movie.MP4" = false ∧
    isVideoFile "movie.mp4/" = false ∧ isVideoFile "mp4" = false := by
  have hd : ∀ x : Char, x.toNat ≠ 46 → x.toNat ≠ 47 → x ≠ '.' ∧ isPathSeparator x = false := by
    intro x h1 h2
    refine ⟨fun h => h1 (by rw [h]; rfl), ?_⟩
    simp only [isPathSeparator, beq_eq_false_iff_ne, ne_eq]
    exact fun h => h2 (by rw [h]; rfl)
  have h4 := ext_eq_iff_suffix path 'm' 'p' '4' (hd _ (by decide) (by decide))
    (hd _ (by decide) (by decide)) (hd _ (by decide) (by decide))
  have hk := ext_eq_iff_suffix path 'm' 'k' 'v' (hd _ (by decide) (by decide))
    (hd _ (by decide) (by decide)) (hd _ (by decide) (by decide))
  have hiff : isVideoFile path = true ↔
      (".mp4".toList <:+ path.toList ∨ ".mkv".toList <:+ path.toList) := by
    unfold isVideoFile
    simp only [Bool.or_eq_true, beq_iff_eq]
    exact or_congr h4 hk
  refine ⟨hiff, ?_, by decide, by decide, by decide, by decide⟩
  rw [Bool.eq_iff_iff, hiff]
  simp [endsWithVideoSuffix, List.isSuffixOf_iff_suffix]

/-! ## Range Parser: signed numbers -/

/-- The verb `%d` reads a minus sign and the decimal text of a number up to `2 ^ 63` as the
negative of that number. -/
theorem scanVerbD_negative (n : Nat) (hn : n ≤ 2 ^ 63) (rest : List Char)
    (hrest : EndsNumber rest) :
    scanVerbD ('-' :: (Nat.toDigits 10 n ++ rest)) = some (-(n : Int), rest) := by
  obtain ⟨hne, hdig, hval⟩ := toDigits_decimal n
  obtain ⟨c, tl, hc⟩ := List.exists_cons_of_ne_nil hne
  have hcd : isDecimalDigit c = true := hdig c (by rw [hc]; simp)
  have hskip : skipSpace ('-' :: (Nat.toDigits 10 n ++ rest))
      = some ('-' :: (Nat.toDigits 10 n ++ rest)) := by
    have h1 : isSpace '-' = false := by decide
    have h2 : ¬ ('-' = '\n') := by decide
    simp [skipSpace, h1, h2]
  have hspan := span_digits (Nat.toDigits 10 n) rest hdig hrest
  have hsign : isSign '-' = true := by decide
  have hle : ¬ 9223372036854775808 < n := by omega
  unfold scanVerbD
  rw [hskip]
  simp only
  unfold scanInt
  rw [hskip]
  simp only [hsign, if_true, beq_self_eq_true]
  rw [hc] at hspan ⊢
  simp only [List.cons_append, scanNumber, hcd, if_true]
  rw [← List.cons_append, hspan]
  simp only [parseInt, if_true]
  rw [← hc, hval]
  simp [hle]

/-- The scan of a suffix-range header `bytes=-<n>` stores `-n` as start and leaves the end
at zero: the input is exhausted where the format expects the dash. -/
theorem sscanfRange_suffixRangeText (n : Nat) (hn : n ≤ 2 ^ 63) :
    sscanfRange (suffixRangeText n) = (-(n : Int), 0) := by
  have hlist : (suffixRangeText n).toList
      = "bytes=".toList ++ ('-' :: (Nat.toDigits 10 n ++ [])) := by
    simp only [suffixRangeText, String.toList, String.data_append]
    rw [← String.toList, toList_toString_nat]
    simp
  have hlen : (suffixRangeText n).toList.length ≤ hugeWid := by
    rw [hlist]
    have h1 : (Nat.toDigits 10 n).length ≤ 19 :=
      Nat.toDigitsCore_length 10 (by decide) (n + 1) n 19 (by omega) (by decide)
    simp only [List.length_append, List.length_cons, List.length_nil]
    have : "bytes=".toList.length = 6 := by decide
    rw [this]
    unfold hugeWid
    omega
  unfold sscanfRange
  rw [List.take_of_length_le hlen, hlist, advanceLiteral_append]
  simp only
  rw [scanVerbD_negative n hn [] endsNumber_nil]
  simp [advanceLiteral]

/-- The text of a suffix-range header is not empty. -/
theorem suffixRangeText_ne_empty (n : Nat) : suffixRangeText n ≠ "" := by
  intro h
  have h2 := congrArg String.toList h
  simp [suffixRangeText, String.toList, String.data_append] at h2

/-- C15, amended: for every file length `total` and every `N` with `0 < N ≤ 2 ^ 63`,
`parseRangeHeader` on the suffix-range header `bytes=-<N>` does not return the full
content: the scan reads `-<N>` as a signed number, so the result is start `-N`, end
`total − 1` and the content length `total + N` computed in `int64`, which is exactly
`total + N` when that is below `2 ^ 63`. The header `bytes=-500` on a 1000-byte file
returns `(-500, 999, 1500)`. -/
theorem parseRangeHeader_suffix_range (total : Int) (N : Nat) (h0 : 0 ≤ total)
    (h1 : total < 2 ^ 63) (hpos : 0 < N) (hN : N ≤ 2 ^ 63) :
    parseRangeHeader (suffixRangeText N) total
      = (-(N : Int), total - 1, wrap64 (total + N)) ∧
    (total + N < 2 ^ 63 →
      parseRangeHeader (suffixRangeText N) total = (-(N : Int), total - 1, total + N)) ∧
    parseRangeHeader (suffixRangeText N) total ≠ (0, total - 1, total) ∧
    parseRangeHeader "bytes=-500" 1000 = (-500, 999, 1500) := by
  have hw : wrap64 (total - 1) = total - 1 := wrap64_of_isInt64 (by unfold IsInt64; omega)
  have heq : parseRangeHeader (suffixRangeText N) total
      = (-(N : Int), total - 1, wrap64 (total + N)) := by
    rw [parseRangeHeader_of_scan _ _ (suffixRangeText_ne_empty N),
      sscanfRange_suffixRangeText N hN]
    simp only [if_true, hw]
    have : total - 1 - -(N : Int) + 1 = total + N := by ring
    rw [this]
  refine ⟨heq, fun hlt => ?_, ?_, by decide⟩
  · rw [heq, wrap64_of_isInt64 (by unfold IsInt64; omega)]
  · rw [heq]
    intro h
    have := congrArg Prod.fst h
    simp only at this
    omega

/-- The suffix range `bytes=-500` of a 1000-byte file. -/
theorem parseRangeHeader_suffix_range_witness :
    ((0 : Int) ≤ 1000 ∧ (1000 : Int) < 2 ^ 63 ∧ 0 < 500 ∧ 500 ≤ 2 ^ 63) ∧
    parseRangeHeader (suffixRangeText 500) 1000
      = (-((500 : Nat) : Int), 1000 - 1, wrap64 (1000 + (500 : Nat))) :=
  ⟨by decide,
   (parseRangeHeader_suffix_range 1000 500 (by decide) (by decide) (by decide) (by decide)).1⟩

/-- C15 as stated fails: the header `bytes=-500` on a 1000-byte file does not yield start 0
and the full content `(0, 999, 1000)`; it yields `(-500, 999, 1500)`. -/
theorem parseRangeHeader_suffix_range_counterexample :
    ¬ (∀ (total : Int) (N : Nat), 0 ≤ total → 0 < N →
        parseRangeHeader (suffixRangeText N) total = (0, total - 1, total)) ∧
    suffixRangeText 500 = "bytes=-500" ∧
    parseRangeHeader "bytes=-500" 1000 = (-500, 999, 1500) := by
  refine ⟨fun h => ?_, by decide, by decide⟩
  have h2 := h 1000 500 (by decide) (by decide)
  revert h2
  decide

/-! ## Range Parser: headers the scan rejects -/

/-- What `SkipSpace` returns is the input without its leading spaces. -/
theorem skipSpace_eq_dropWhile (inp out : List Char) (h : skipSpace inp = some out) :
    out = inp.dropWhile isBlank := by
  induction inp with
  | nil =>
    simp only [skipSpace, Option.some.injEq] at h
    simp [← h]
  | cons r rest ih =>
    unfold skipSpace at h
    by_cases hnl : r = '\n'
    · simp [hnl] at h
    · simp only [hnl, if_false] at h
      by_cases hsp : isSpace r = true
      · simp only [hsp, if_true] at h
        have hb : isBlank r = true := by simp [isBlank, hsp, hnl]
        rw [List.dropWhile_cons_of_pos hb]
        exact ih h
      · have hsp2 : isSpace r = false := by simpa using hsp
        simp only [hsp2, Bool.false_eq_true, if_false, Option.some.injEq] at h
        have hb : ¬ isBlank r = true := by simp [isBlank, hsp2]
        rw [List.dropWhile_cons_of_neg hb]
        exact h.symm

/-- An input from which `scanNumber` takes digits begins with a decimal digit. -/
theorem scanNumber_some (inp : List Char) (x : List Char × List Char)
    (h : scanNumber inp = some x) : ∃ d tl, inp = d :: tl ∧ isDecimalDigit d = true := by
  cases inp with
  | nil => simp [scanNumber] at h
  | cons d tl =>
    refine ⟨d, tl, rfl, ?_⟩
    by_contra hd
    simp [scanNumber, hd] at h

/-- An input from which the verb `%d` scans a number begins, after its leading spaces,
with an integer. -/
theorem beginsInteger_of_scanVerbD (inp : List Char) (x : Int × List Char)
    (h : scanVerbD inp = some x) : beginsInteger (inp.dropWhile isBlank) = true := by
  unfold scanVerbD at h
  split at h
  · simp at h
  · rename_i inp1 h1
    have e1 := skipSpace_eq_dropWhile _ _ h1
    unfold scanInt at h
    split at h
    · simp at h
    · simp at h
    · rename_i r tl h2
      have e2 := skipSpace_eq_dropWhile _ _ h2
      rw [e1, List.dropWhile_idempotent] at e2
      rw [← e2]
      simp only at h
      split at h
      · simp at h
      · rename_i digits rest hnum
        obtain ⟨d, tl2, hd1, hd2⟩ := scanNumber_some _ _ hnum
        by_cases hs : isSign r = true
        · simp only [hs, if_true] at hd1
          rw [hd1]
          simp [beginsInteger, hs, hd2]
        · simp only [hs, if_false] at hd1
          have hr : r = d := (List.cons.inj hd1).1
          rw [hr]
          simp [beginsInteger, hd2]

/-- A literal that `advance` has consumed stood at the head of the input. -/
theorem advanceLiteral_some (lit inp rest : List Char) (h : advanceLiteral lit inp = some rest) :
    inp = lit ++ rest := by
  induction lit generalizing inp with
  | nil =>
    cases inp <;> simp_all [advanceLiteral]
  | cons c lit ih =>
    cases inp with
    | nil => simp [advanceLiteral] at h
    | cons r inp =>
      unfold advanceLiteral at h
      by_cases hc : c = r
      · simp only [hc, if_true] at h
        rw [hc, ih inp h]
        simp
      · simp [hc] at h

/-- An input that begins with an integer still does so when more input follows. -/
theorem beginsInteger_append (x t : List Char) (h : beginsInteger x = true) :
    beginsInteger (x ++ t) = true := by
  cases x with
  | nil => simp [beginsInteger] at h
  | cons c tl =>
    cases tl with
    | nil =>
      simp only [beginsInteger, Bool.and_false, Bool.or_false] at h
      simp [beginsInteger, h]
    | cons d tl2 =>
      simpa [beginsInteger] using h

/-- A header from which the scan stores a start begins with `bytes=`, spaces and an
integer; for every other header both operands stay zero. -/
theorem sscanfRange_rejects (header : String) (h : beginsBytesBlanksInteger header = false) :
    sscanfRange header = (0, 0) := by
  unfold sscanfRange
  split
  · rfl
  · rename_i inp1 hlit
    split
    · rfl
    · rename_i start inp2 hscan
      exfalso
      have hpre := advanceLiteral_some _ _ _ hlit
      have hbeg := beginsInteger_of_scanVerbD _ _ hscan
      have hfull : header.toList = "bytes=".toList ++ (inp1 ++ header.toList.drop hugeWid) := by
        conv_lhs => rw [← List.take_append_drop hugeWid header.toList, hpre]
        simp
      have hne : inp1.dropWhile isBlank ≠ [] := by
        intro hnil
        rw [hnil] at hbeg
        simp [beginsInteger] at hbeg
      have hdrop : (inp1 ++ header.toList.drop hugeWid).dropWhile isBlank
          = inp1.dropWhile isBlank ++ header.toList.drop hugeWid := by
        rw [List.dropWhile_append]
        have : (inp1.dropWhile isBlank).isEmpty = false := by
          cases hd : inp1.dropWhile isBlank with
          | nil => exact absurd hd hne
          | cons a b => rfl
        simp [this]
      have htrue : beginsBytesBlanksInteger header = true := by
        unfold beginsBytesBlanksInteger
        rw [hfull]
        have h6 : ("bytes=".toList ++ (inp1 ++ header.toList.drop hugeWid)).drop 6
            = inp1 ++ header.toList.drop hugeWid := by
          have : "bytes=".toList.length = 6 := by decide
          rw [← this, List.drop_left]
        rw [h6, hdrop, beginsInteger_append _ _ hbeg]
        simp
      rw [htrue] at h
      exact absurd h (by simp)

/-- C18, amended: for every file length `total` and every non-empty header that does not
begin with the literal text `bytes=` followed by optional spaces (other than newlines) and
an integer, among them `garbage`, `items=0-5` and `bytes=abc`, `parseRangeHeader` returns
the full content `(0, total − 1, total)`, the result for the empty header. -/
theorem parseRangeHeader_rejected_header (header : String) (total : Int)
    (hne : header ≠ "") (h0 : 0 ≤ total) (h1 : total < 2 ^ 63)
    (hbad : beginsBytesBlanksInteger header = false) :
    parseRangeHeader header total = (0, total - 1, total) ∧
    parseRangeHeader header total = parseRangeHeader "" total ∧
    parseRangeHeader "garbage" total = (0, total - 1, total) ∧
    parseRangeHeader "items=0-5" total = (0, total - 1, total) ∧
    parseRangeHeader "bytes=abc" total = (0, total - 1, total) := by
  have hw : wrap64 (total - 1) = total - 1 := wrap64_of_isInt64 (by unfold IsInt64; omega)
  have hw2 : wrap64 total = total := wrap64_of_isInt64 (by unfold IsInt64; omega)
  have key : ∀ hd : String, hd ≠ "" → beginsBytesBlanksInteger hd = false →
      parseRangeHeader hd total = (0, total - 1, total) := by
    intro hd hdne hdbad
    rw [parseRangeHeader_of_scan _ _ hdne, sscanfRange_rejects hd hdbad]
    simp only [if_true, hw, sub_zero]
    have : total - 1 + 1 = total := by ring
    rw [this, hw2]
  refine ⟨key header hne hbad, ?_, key _ (by decide) (by decide), key _ (by decide) (by decide),
    key _ (by decide) (by decide)⟩
  rw [key header hne hbad, parseRangeHeader_empty_eq total h0 h1]

/-- The header `garbage` on a 1000-byte file. -/
theorem parseRangeHeader_rejected_header_witness :
    ("garbage" ≠ "" ∧ (0 : Int) ≤ 1000 ∧ (1000 : Int) < 2 ^ 63 ∧
      beginsBytesBlanksInteger "garbage" = false) ∧
    parseRangeHeader "garbage" 1000 = (0, 1000 - 1, 1000) :=
  ⟨by decide,
   (parseRangeHeader_rejected_header "garbage" 1000 (by decide) (by decide) (by decide)
    (by decide)).1⟩

/-- C18 as stated fails: the header `bytes= 5-7` does not begin with `bytes=` followed by an
integer, a space follows, yet the scan skips the space and the result on a 1000-byte file
is `(5, 7, 3)`, not the full content. -/
theorem parseRangeHeader_rejected_header_counterexample :
    ¬ (∀ (header : String) (total : Int), header ≠ "" → beginsBytesInteger header = false →
        0 ≤ total → parseRangeHeader header total = (0, total - 1, total)) ∧
    beginsBytesInteger "bytes= 5-7" = false ∧
    parseRangeHeader "bytes= 5-7" 1000 = (5, 7, 3) := by
  refine ⟨fun h => ?_, by decide, by decide⟩
  have h2 := h "bytes= 5-7" 1000 (by decide) (by decide) (by decide)
  revert h2
  decide

/-! ## Streaming Engine: every reader -/

/-- The error returned by `Write` is the one the connection holds for this call, and the
connection behaviour is unchanged. -/
theorem write_err (w : ResponseWriter) (p : List UInt8) :
    (w.write p).2 = w.writeErr w.writes ∧ (w.write p).1.writeErr = w.writeErr := by
  obtain ⟨-, he, hw, -⟩ := writeHeader_fields w 200
  unfold ResponseWriter.write
  simp only
  rw [he, hw]
  cases w.writeErr w.writes <;> simp [he]

/-- The text appended by `http.Error` for one of the three messages of `streamVideoFile`
is an error text. -/
theorem httpError_errorText (w : ResponseWriter) (msg e : String) (code : Nat)
    (hmsg : msg = "Error seeking in file: " ++ e ∨ msg = "Error reading file: " ++ e ∨
      msg = "Error writing to client: " ++ e) :
    ∃ text, ErrorText text ∧ (httpError w msg code).body = w.body ++ text := by
  rw [httpError_body]
  by_cases hacc : w.writeErr w.writes = none
  · refine ⟨bytesOf (msg ++ "\n"), Or.inr ⟨e, ?_⟩, by simp [hacc]⟩
    rcases hmsg with h | h | h
    · left; rw [h]
    · right; left; rw [h]
    · right; right; rw [h]
  · exact ⟨[], Or.inl rfl, by simp [hacc]⟩

/-- Appending a read event adds one to the number of reads. -/
theorem readCount_append_read (trace : List Event) (len : Nat) :
    readCount (trace ++ [Event.read len]) = readCount trace + 1 := by
  simp [readCount, List.countP_append]

/-- One pass through the loop body, for any reader and any connection. The pass makes one
`Read`. It ends the loop after an error, having appended at most an error text to the
body; or it ends the loop at end-of-stream or after an empty read, having appended the
bytes read; or the loop goes on at the position advanced by the positive number of bytes
read, all of them appended to the body. -/
theorem loopBody_cases {ρ : Type} (R : Reader ρ) (pos : Int) (s : Session ρ) :
    ∃ s1, s1.trace = s.trace ++ [Event.read bufSize] ∧
      ((loopBody R pos s = .done s1 ∧ (∃ text, ErrorText text ∧ s1.w.body = s.w.body ++ text) ∧
          ¬ (ErrorFree R ∧ Accepts s.w)) ∨
       (loopBody R pos s = .done s1 ∧
          s1.w.body = s.w.body ++ (R.read s.rd bufSize).2.data ∧ (Accepts s.w → Accepts s1.w) ∧
          ((R.read s.rd bufSize).2.err = some .eof ∨ (R.read s.rd bufSize).2.data.length = 0)) ∨
       (loopBody R pos s = .next (wrap64 (pos + ((R.read s.rd bufSize).2.data.length : Nat))) s1 ∧
          0 < (R.read s.rd bufSize).2.data.length ∧
          s1.w.body = s.w.body ++ (R.read s.rd bufSize).2.data ∧
          (Accepts s.w → Accepts s1.w))) := by
  cases hr : R.read s.rd bufSize with
  | mk rd res =>
  have hres : ∀ msg, res.err = some (.other msg) → ¬ ErrorFree R := by
    intro msg hm hfree
    have := hfree s.rd bufSize msg
    rw [hr] at this
    exact this hm
  simp only
  by_cases hother : ∃ msg, res.err = some (.other msg)
  · obtain ⟨msg, hmsg⟩ := hother
    obtain ⟨text, ht1, ht2⟩ := httpError_errorText s.w ("Error reading file: " ++ msg) msg 500
      (Or.inr (Or.inl rfl))
    refine ⟨{ w := httpError s.w ("Error reading file: " ++ msg) 500, rd := rd,
              trace := s.trace ++ [Event.read bufSize] }, rfl,
      Or.inl ⟨?_, ⟨text, ht1, ht2⟩, fun h => hres msg hmsg h.1⟩⟩
    simp only [loopBody, hr, hmsg]
  · have hbody : loopBody R pos s =
        (match (if res.data.length > 0 then s.w.write res.data else (s.w, none)).2 with
          | some e =>
            Step.done
              { w := httpError (if res.data.length > 0 then s.w.write res.data else (s.w, none)).1
                  ("Error writing to client: " ++ e.text) 500,
                rd := rd, trace := s.trace ++ [Event.read bufSize] }
          | none =>
            if res.err = some .eof ∨ res.data.length = 0 then
              Step.done
                { w := if res.data.length > 0 then
                      (if res.data.length > 0 then s.w.write res.data else (s.w, none)).1.flush
                    else (if res.data.length > 0 then s.w.write res.data else (s.w, none)).1,
                  rd := rd, trace := s.trace ++ [Event.read bufSize] }
            else
              Step.next (wrap64 (pos + res.data.length))
                { w := if res.data.length > 0 then
                      (if res.data.length > 0 then s.w.write res.data else (s.w, none)).1.flush
                    else (if res.data.length > 0 then s.w.write res.data else (s.w, none)).1,
                  rd := rd, trace := s.trace ++ [Event.read bufSize] }) := by
      simp only [loopBody, hr]
      cases herr : res.err with
      | none => rfl
      | some e =>
        cases e with
        | eof => rfl
        | other msg => exact absurd ⟨msg, herr⟩ hother
    rw [hbody]
    by_cases hn : res.data.length > 0
    · simp only [if_pos hn]
      obtain ⟨hwe, hwf⟩ := write_err s.w res.data
      have hwb := write_body s.w res.data
      cases hw : s.w.writeErr s.w.writes with
      | some e =>
        have hpair : (s.w.write res.data).2 = some e := by rw [hwe, hw]
        obtain ⟨text, ht1, ht2⟩ := httpError_errorText (s.w.write res.data).1
          ("Error writing to client: " ++ e.text) e.text 500 (Or.inr (Or.inr rfl))
        refine ⟨{ w := httpError (s.w.write res.data).1 ("Error writing to client: " ++ e.text) 500,
                  rd := rd, trace := s.trace ++ [Event.read bufSize] }, rfl,
          Or.inl ⟨by simp only [hpair], ⟨text, ht1, ?_⟩, fun h => ?_⟩⟩
        · rw [ht2, hwb, hw]
          simp
        · have := h.2 s.w.writes
          rw [hw] at this
          exact absurd this (by simp)
      | none =>
        have hpair : (s.w.write res.data).2 = none := by rw [hwe, hw]
        have hb2 : (s.w.write res.data).1.flush.body = s.w.body ++ res.data := by
          rw [(flush_fields _).1, hwb, hw]
          simp
        have hacc : Accepts s.w → Accepts (s.w.write res.data).1.flush := by
          intro ha k
          rw [(flush_fields _).2, hwf]
          exact ha k
        by_cases hstop : res.err = some .eof ∨ res.data.length = 0
        · refine ⟨{ w := (s.w.write res.data).1.flush, rd := rd,
                    trace := s.trace ++ [Event.read bufSize] }, rfl,
            Or.inr (Or.inl ⟨?_, hb2, hacc, hstop⟩)⟩
          simp only [hpair, hstop, if_true]
        · refine ⟨{ w := (s.w.write res.data).1.flush, rd := rd,
                    trace := s.trace ++ [Event.read bufSize] }, rfl,
            Or.inr (Or.inr ⟨?_, hn, hb2, hacc⟩)⟩
          simp only [hpair, hstop, if_false]
    · have hz : res.data.length = 0 := by omega
      have hnil : res.data = [] := List.length_eq_zero.mp hz
      refine ⟨{ w := s.w, rd := rd, trace := s.trace ++ [Event.read bufSize] }, rfl,
        Or.inr (Or.inl ⟨?_, by simp [hnil], fun h => h, Or.inr hz⟩)⟩
      simp [hn, hz]

/-- The copy loop over any reader that keeps the contract of `io.Reader`, for an `end` at
least one buffer below the largest `int64`: with fuel for `end − pos + 1` passes the loop
ends, having made at most that many reads; it does nothing when `pos` is beyond `end`; and
the body grows by the bytes read, at most `end − pos` plus one buffer, followed by at most
one error text, which is absent when neither the reader nor the connection fails. -/
theorem streamLoop_bounded {ρ : Type} (R : Reader ρ) (hR : Conforms R) (end_ : Int)
    (hend : end_ + (bufSize : Int) < 2 ^ 63) (fuel : Nat) :
    ∀ (pos : Int) (s : Session ρ), -(2 ^ 63) ≤ pos → (end_ - pos + 1).toNat ≤ fuel →
      ∃ s1, streamLoop R end_ fuel pos s = some s1 ∧
        readCount s1.trace ≤ readCount s.trace + (end_ - pos + 1).toNat ∧
        (end_ < pos → s1 = s) ∧
        ∃ data text, s1.w.body = s.w.body ++ data ++ text ∧
          (data.length : Int) ≤ max 0 (end_ - pos + (bufSize : Int)) ∧
          ErrorText text ∧ (ErrorFree R → Accepts s.w → text = []) := by
  have hbuf : bufSize = 1048576 := by decide
  induction fuel with
  | zero =>
    intro pos s hpos hfuel
    have hguard : ¬ pos ≤ end_ := by omega
    refine ⟨s, by simp [streamLoop, hguard], by omega, fun _ => rfl, [], [], by simp, ?_,
      Or.inl rfl, fun _ _ => rfl⟩
    simp
  | succ fuel ih =>
    intro pos s hpos hfuel
    by_cases hguard : pos ≤ end_
    · have hn := hR s.rd bufSize
      obtain ⟨s1, htrace, hcase⟩ := loopBody_cases R pos s
      have hcount : readCount s1.trace = readCount s.trace + 1 := by
        rw [htrace, readCount_append_read]
      rcases hcase with ⟨hdone, ⟨text, ht1, ht2⟩, hnot⟩ | ⟨hdone, hb, -, -⟩ | ⟨hnext, hpos1, hb, hacc⟩
      · refine ⟨s1, by simp [streamLoop, hguard, hdone], by omega, fun h => by omega,
          [], text, by simp [ht2], ?_, ht1, fun hf ha => absurd ⟨hf, ha⟩ hnot⟩
        simp
      · refine ⟨s1, by simp [streamLoop, hguard, hdone], by omega, fun h => by omega,
          (R.read s.rd bufSize).2.data, [], by simp [hb], ?_, Or.inl rfl, fun _ _ => rfl⟩
        omega
      · have hw : wrap64 (pos + ((R.read s.rd bufSize).2.data.length : Nat))
            = pos + ((R.read s.rd bufSize).2.data.length : Nat) := by
          apply wrap64_of_isInt64
          unfold IsInt64
          omega
        rw [hw] at hnext
        obtain ⟨s2, hrun, hc2, -, data, text, hb2, hlen, ht, htext⟩ :=
          ih (pos + ((R.read s.rd bufSize).2.data.length : Nat)) s1 (by omega) (by omega)
        refine ⟨s2, by simp [streamLoop, hguard, hnext, hrun], by omega, fun h => by omega,
          (R.read s.rd bufSize).2.data ++ data, text, ?_, ?_, ht,
          fun hf ha => htext hf (hacc ha)⟩
        · rw [hb2, hb]
          simp
        · rw [List.length_append]
          push_cast
          omega
    · refine ⟨s, by simp [streamLoop, hguard], by omega, fun _ => rfl, [], [], by simp, ?_,
        Or.inl rfl, fun _ _ => rfl⟩
      simp

/-- The endless reader keeps the contract of `io.Reader`. -/
theorem endlessReader_conforms : Conforms endlessReader := by
  intro s len
  simp [endlessReader]

/-- The endless reader never returns an error. -/
theorem endlessReader_errorFree : ErrorFree endlessReader := by
  intro s len msg
  simp [endlessReader]

/-- One pass of the loop body over the endless reader and an accepting connection: one
byte is appended to the body and the loop goes on one position further. -/
theorem loopBody_endless (pos : Int) (s : Session Unit) (hacc : Accepts s.w) :
    ∃ s1, loopBody endlessReader pos s = .next (wrap64 (pos + 1)) s1 ∧
      s1.w.body.length = s.w.body.length + 1 ∧ Accepts s1.w ∧
      readCount s1.trace = readCount s.trace + 1 := by
  have hdata : (endlessReader.read s.rd bufSize).2.data = [0] := by
    simp [endlessReader, bufSize]
  have herr : (endlessReader.read s.rd bufSize).2.err = none := rfl
  obtain ⟨s1, htrace, hcase⟩ := loopBody_cases endlessReader pos s
  rcases hcase with ⟨-, -, hnot⟩ | ⟨-, -, -, hstop⟩ | ⟨hnext, -, hb, ha⟩
  · exact absurd ⟨endlessReader_errorFree, hacc⟩ hnot
  · rw [herr, hdata] at hstop
    simp at hstop
  · rw [hdata] at hnext hb
    refine ⟨s1, by simpa using hnext, by rw [hb]; simp, ha hacc, ?_⟩
    rw [htrace, readCount_append_read]

/-- With `end` at the largest `int64` the loop over the endless reader is still running
after any number of passes, having written one byte and made one read in each. -/
theorem afterPasses_endless (k : Nat) : ∀ (pos : Int) (s : Session Unit), IsInt64 pos →
    Accepts s.w →
    ∃ pos1 s1, afterPasses endlessReader (2 ^ 63 - 1) k pos s = some (pos1, s1, true) ∧
      s1.w.body.length = s.w.body.length + k ∧
      readCount s1.trace = readCount s.trace + k := by
  induction k with
  | zero =>
    intro pos s _ _
    exact ⟨pos, s, rfl, rfl, rfl⟩
  | succ k ih =>
    intro pos s hpos hacc
    have hguard : pos ≤ 2 ^ 63 - 1 := by unfold IsInt64 at hpos; omega
    obtain ⟨s1, hnext, hlen, hacc1, hcount⟩ := loopBody_endless pos s hacc
    obtain ⟨pos2, s2, hrun, hlen2, hcount2⟩ := ih (wrap64 (pos + 1)) s1 (wrap64_isInt64 _) hacc1
    refine ⟨pos2, s2, ?_, by omega, by omega⟩
    simp only [afterPasses, hguard, if_true, hnext]
    exact hrun

/-- With `end` at the largest `int64` the loop over the endless reader has not ended after
any number of passes. -/
theorem streamLoop_endless (fuel : Nat) : ∀ (pos : Int) (s : Session Unit), IsInt64 pos →
    Accepts s.w → streamLoop endlessReader (2 ^ 63 - 1) fuel pos s = none := by
  induction fuel with
  | zero =>
    intro pos s hpos _
    have hguard : pos ≤ 2 ^ 63 - 1 := by unfold IsInt64 at hpos; omega
    simp only [streamLoop, hguard, if_true]
  | succ fuel ih =>
    intro pos s hpos hacc
    have hguard : pos ≤ 2 ^ 63 - 1 := by unfold IsInt64 at hpos; omega
    obtain ⟨s1, hnext, -, hacc1, -⟩ := loopBody_endless pos s hacc
    simp only [streamLoop, hguard, if_true, hnext]
    exact ih _ s1 (wrap64_isInt64 _) hacc1

/-- Closing the reader adds no read to the trace. -/
theorem readCount_closeReader {ρ : Type} (R : Reader ρ) (s : Session ρ) :
    readCount (closeReader R s).trace = readCount s.trace := by
  simp [closeReader, readCount, List.countP_append]

/-- A session over any reader that keeps the contract of `io.Reader`, for an `end` at least
one buffer below the largest `int64`: with fuel for `end − start + 1` passes
`streamVideoFile` returns, having made at most that many reads; when `start` is beyond
`end` and the seek succeeds it leaves the response writer as it was; the body grows by the
bytes read, at most `end − start` plus one buffer, followed by at most one error text,
which is absent when neither the reader nor the connection fails. -/
theorem streamVideoFile_bounded {ρ : Type} (R : Reader ρ) (hR : Conforms R)
    (w : ResponseWriter) (f : File) (start end_ : Int) (hs : IsInt64 start)
    (hend : end_ + (bufSize : Int) < 2 ^ 63) (fuel : Nat)
    (hfuel : (end_ - start + 1).toNat ≤ fuel) :
    ∃ s, streamVideoFile R fuel w f start end_ = some s ∧
      readCount s.trace ≤ (end_ - start + 1).toNat ∧
      (end_ < start → (R.seek (R.newReader f) start).2 = none → s.w = w) ∧
      ∃ data text, s.w.body = w.body ++ data ++ text ∧
        (data.length : Int) ≤ max 0 (end_ - start + (bufSize : Int)) ∧
        ErrorText text ∧
        (ErrorFree R → (R.seek (R.newReader f) start).2 = none → Accepts w → text = []) := by
  cases hseek : (R.seek (R.newReader f) start).2 with
  | some e =>
    have hopen : openAndSeek R w f start = ((openAndSeek R w f start).1, some e) :=
      Prod.ext rfl hseek
    obtain ⟨text, ht1, ht2⟩ := httpError_errorText w ("Error seeking in file: " ++ e.text)
      e.text 500 (Or.inl rfl)
    refine ⟨closeReader R { (openAndSeek R w f start).1 with
        w := httpError (openAndSeek R w f start).1.w ("Error seeking in file: " ++ e.text) 500 },
      ?_, ?_, fun _ h => by simp at h, [], text, ?_, by simp, ht1, fun _ h => by simp at h⟩
    · unfold streamVideoFile
      rw [hopen]
    · simp [closeReader, openAndSeek, readCount]
    · simpa [closeReader, openAndSeek] using ht2
  | none =>
    have hopen : openAndSeek R w f start = ((openAndSeek R w f start).1, none) :=
      Prod.ext rfl hseek
    obtain ⟨s1, hrun, hcount, hsame, data, text, hb, hlen, ht, htext⟩ :=
      streamLoop_bounded R hR end_ hend fuel start (openAndSeek R w f start).1
        (by unfold IsInt64 at hs; omega) hfuel
    have h0 : readCount (openAndSeek R w f start).1.trace = 0 := by
      simp [openAndSeek, readCount]
    refine ⟨closeReader R s1, ?_, ?_, fun hlt _ => ?_, data, text, ?_, hlen, ht,
      fun hf _ ha => htext hf ha⟩
    · unfold streamVideoFile
      rw [hopen]
      simp [hrun]
    · rw [readCount_closeReader]
      omega
    · rw [hsame hlt]
      rfl
    · exact hb

/-- C16, amended: for every reader that keeps the contract of `io.Reader` (a read returns
at most `len(buf)` bytes), also one that never signals end-of-stream or an error, every
connection, every `int64` start and every `end ≤ 2 ^ 63 − 1 − 2 ^ 20`, the copy loop of
`streamVideoFile` ends: with fuel for `end − start + 1` passes the function returns,
having made at most `end − start + 1` reads when `start ≤ end`, and no read at all when
`start > end`, in which case, the seek having succeeded, nothing is written. -/
theorem copy_loop_terminates {ρ : Type} (R : Reader ρ) (hR : Conforms R)
    (w : ResponseWriter) (f : File) (start end_ : Int) (hs : IsInt64 start)
    (hend : end_ + (bufSize : Int) < 2 ^ 63) (fuel : Nat)
    (hfuel : (end_ - start + 1).toNat ≤ fuel) :
    ∃ s, streamVideoFile R fuel w f start end_ = some s ∧
      (start ≤ end_ → (readCount s.trace : Int) ≤ end_ - start + 1) ∧
      (end_ < start → readCount s.trace = 0 ∧
        ((R.seek (R.newReader f) start).2 = none → s.w = w ∧ s.w.body = w.body)) := by
  obtain ⟨s, hrun, hcount, hsame, -⟩ :=
    streamVideoFile_bounded R hR w f start end_ hs hend fuel hfuel
  refine ⟨s, hrun, fun hle => by omega, fun hlt => ⟨by omega, fun hseek => ?_⟩⟩
  have := hsame hlt hseek
  exact ⟨this, by rw [this]⟩

/-- The endless reader streamed from offset 0 up to offset 2: the session ends within
three passes. -/
theorem copy_loop_terminates_witness :
    (Conforms endlessReader ∧ IsInt64 0 ∧ (2 : Int) + (bufSize : Int) < 2 ^ 63 ∧
      ((2 : Int) - 0 + 1).toNat ≤ 3) ∧
    ∃ s, streamVideoFile endlessReader 3 (ResponseWriter.fresh (fun _ => none))
        { path := "a.mp4", length := 5 } 0 2 = some s ∧
      ((0 : Int) ≤ 2 → (readCount s.trace : Int) ≤ 2 - 0 + 1) :=
  ⟨⟨endlessReader_conforms, by decide, by decide, by decide⟩,
   (copy_loop_terminates endlessReader endlessReader_conforms
      (ResponseWriter.fresh (fun _ => none)) { path := "a.mp4", length := 5 } 0 2
      (by decide) (by decide) 3 (by decide)).imp (fun _ h => ⟨h.1, h.2.1⟩)⟩

/-- C16 as stated fails: with `start = 2 ^ 63 − 2` and `end = 2 ^ 63 − 1`, where the claim
allows two reads, the loop over the endless reader is still running after three passes
and three reads, the position having wrapped around, and `streamVideoFile` does not
return whatever the fuel. -/
theorem copy_loop_counterexample :
    ((2 ^ 63 - 1 : Int) - (2 ^ 63 - 2) + 1 = 2) ∧
    (∃ pos s, afterPasses endlessReader (2 ^ 63 - 1) 3 (2 ^ 63 - 2)
        (openAndSeek endlessReader (ResponseWriter.fresh (fun _ => none))
          { path := "a.mp4", length := 5 } (2 ^ 63 - 2)).1 = some (pos, s, true) ∧
      readCount s.trace = 3) ∧
    (∀ fuel, streamVideoFile endlessReader fuel (ResponseWriter.fresh (fun _ => none))
        { path := "a.mp4", length := 5 } (2 ^ 63 - 2) (2 ^ 63 - 1) = none) := by
  have hacc : Accepts (openAndSeek endlessReader (ResponseWriter.fresh (fun _ => none))
      { path := "a.mp4", length := 5 } (2 ^ 63 - 2)).1.w := fun _ => rfl
  have hpos : IsInt64 (2 ^ 63 - 2) := by decide
  refine ⟨by decide, ?_, fun fuel => ?_⟩
  · obtain ⟨pos, s, hrun, -, hcount⟩ := afterPasses_endless 3 (2 ^ 63 - 2) _ hpos hacc
    refine ⟨pos, s, hrun, ?_⟩
    rw [hcount]
    simp [openAndSeek, readCount]
  · have hrun := streamLoop_endless fuel (2 ^ 63 - 2) _ hpos hacc
    unfold streamVideoFile
    rw [show openAndSeek endlessReader (ResponseWriter.fresh (fun _ => none))
        { path := "a.mp4", length := 5 } (2 ^ 63 - 2)
        = ((openAndSeek endlessReader (ResponseWriter.fresh (fun _ => none))
          { path := "a.mp4", length := 5 } (2 ^ 63 - 2)).1, none) from rfl]
    simp only [hrun, Option.map_none']

/-- C17, amended: overshoot bound. For every reader that keeps the contract of `io.Reader`,
every connection, every `int64` start and every end with
`start ≤ end ≤ 2 ^ 63 − 1 − 2 ^ 20`, the session appends to the body the bytes it has
read, at most `(end − start) + 2 ^ 20` of them, followed by at most the one message of its
`http.Error` call; when neither the reader nor the connection fails there is no such
message and the body grows by at most `(end − start) + 2 ^ 20` bytes. The bytes are not
truncated to the interval: four source bytes read in one chunk for the range 0 to 0 are
all written. -/
theorem overshoot_bound {ρ : Type} (R : Reader ρ) (hR : Conforms R) (w : ResponseWriter)
    (f : File) (start end_ : Int) (hs : IsInt64 start) (hle : start ≤ end_)
    (hend : end_ + (bufSize : Int) < 2 ^ 63) (fuel : Nat)
    (hfuel : (end_ - start + 1).toNat ≤ fuel) :
    (∃ s, streamVideoFile R fuel w f start end_ = some s ∧
      ∃ data text, s.w.body = w.body ++ data ++ text ∧
        (data.length : Int) ≤ (end_ - start) + 2 ^ 20 ∧ ErrorText text ∧
        (ErrorFree R → (R.seek (R.newReader f) start).2 = none → Accepts w →
          text = [] ∧ (s.w.body.length : Int) ≤ w.body.length + (end_ - start) + 2 ^ 20)) ∧
    (streamVideoFile (fileReader (fun _ => [1, 2, 3, 4]) (fun _ => 4) false) 2
        (ResponseWriter.fresh (fun _ => none)) { path := "a.mp4", length := 4 } 0 0).map
      (fun s => s.w.body) = some [1, 2, 3, 4] := by
  have hbuf : bufSize = 1048576 := by decide
  refine ⟨?_, by decide⟩
  obtain ⟨s, hrun, -, -, data, text, hb, hlen, ht, htext⟩ :=
    streamVideoFile_bounded R hR w f start end_ hs hend fuel hfuel
  have hlen2 : (data.length : Int) ≤ (end_ - start) + 2 ^ 20 := by omega
  refine ⟨s, hrun, data, text, hb, hlen2, ht, fun hf hseek hacc => ?_⟩
  have hnil := htext hf hseek hacc
  refine ⟨hnil, ?_⟩
  rw [hb, hnil]
  simp only [List.append_nil, List.length_append]
  push_cast
  omega

/-- The endless reader streamed from offset 0 up to offset 2. -/
theorem overshoot_bound_witness :
    (Conforms endlessReader ∧ IsInt64 0 ∧ (0 : Int) ≤ 2 ∧
      (2 : Int) + (bufSize : Int) < 2 ^ 63 ∧ ((2 : Int) - 0 + 1).toNat ≤ 3) ∧
    ∃ s, streamVideoFile endlessReader 3 (ResponseWriter.fresh (fun _ => none))
        { path := "a.mp4", length := 5 } 0 2 = some s ∧
      ∃ data text, s.w.body = (ResponseWriter.fresh (fun _ => none)).body ++ data ++ text ∧
        (data.length : Int) ≤ (2 - 0) + 2 ^ 20 ∧ ErrorText text :=
  ⟨⟨endlessReader_conforms, by decide, by decide, by decide, by decide⟩,
   (overshoot_bound endlessReader endlessReader_conforms
      (ResponseWriter.fresh (fun _ => none)) { path := "a.mp4", length := 5 } 0 2
      (by decide) (by decide) (by decide) 3 (by decide)).1.imp
    (fun _ h => ⟨h.1, h.2.imp (fun _ h2 => h2.imp (fun _ h3 => ⟨h3.1, h3.2.1, h3.2.2.1⟩))⟩)⟩

/-- C17 as stated fails: with `start = 2 ^ 63 − 2` and `end = 2 ^ 63 − 1` the bound is
`1 + 2 ^ 20` bytes, yet after `2 ^ 20 + 2` passes over the endless reader the loop is
still running and the sink holds `2 ^ 20 + 2` bytes: the position has wrapped around and
never exceeds `end`. -/
theorem overshoot_counterexample :
    ((2 ^ 63 - 2 : Int) ≤ 2 ^ 63 - 1) ∧
    ∃ pos s, afterPasses endlessReader (2 ^ 63 - 1) (2 ^ 20 + 2) (2 ^ 63 - 2)
        (openAndSeek endlessReader (ResponseWriter.fresh (fun _ => none))
          { path := "a.mp4", length := 5 } (2 ^ 63 - 2)).1 = some (pos, s, true) ∧
      s.w.body.length = 2 ^ 20 + 2 ∧
      ¬ ((s.w.body.length : Int) ≤ ((2 ^ 63 - 1) - (2 ^ 63 - 2)) + 2 ^ 20) := by
  have hacc : Accepts (openAndSeek endlessReader (ResponseWriter.fresh (fun _ => none))
      { path := "a.mp4", length := 5 } (2 ^ 63 - 2)).1.w := fun _ => rfl
  have hpos : IsInt64 (2 ^ 63 - 2) := by decide
  refine ⟨by decide, ?_⟩
  obtain ⟨pos, s, hrun, hlen, -⟩ := afterPasses_endless (2 ^ 20 + 2) (2 ^ 63 - 2) _ hpos hacc
  have hlen2 : s.w.body.length = 2 ^ 20 + 2 := by
    rw [hlen]
    simp [openAndSeek, ResponseWriter.fresh]
  refine ⟨pos, s, hrun, hlen2, ?_⟩
  rw [hlen2]
  norm_num

end Rsd
